import Mathlib

/-!
Verification of the iris encrypted link (`proto/link/link.go`) and the
block-circular FIFO queue (`container/queue/queue.go`).

Bytes are modelled as natural numbers combined with `Nat.xor`; byte slices as
`List Nat`.  External collaborators (the `proto` header/message types, the gob
codec, the `config` package sizes and the Go standard-library crypto
primitives) are not part of the sources; they are modelled from the
specification's contracts (§3, §6), each marked `Modelled from the spec:` in
its doc comment.  The transport is modelled as the list of frames written.
-/

/-! ## Queue: data model (from `container/queue/queue.go`) -/

/-- The size of a block of data (`blockSize` in `queue.go`). -/
def blockSize : Nat := 4096

/-- State of the FIFO queue (`Queue` in `queue.go`).  The Go fields `head` and
`tail` are slice aliases of `blocks[headIdx]` / `blocks[tailIdx]`; in this
functional embedding they are derived accessors (`Queue.head`, `Queue.tail`)
rather than duplicated state, which is exactly what the aliasing maintains. -/
structure Queue (α : Type) where
  tailIdx : Nat
  headIdx : Nat
  tailOff : Nat
  headOff : Nat
  blocks : List (List (Option α))
deriving DecidableEq

/-- Creates a new, empty queue (`New` in `queue.go`). -/
def Queue.new : Queue α :=
  ⟨0, 0, 0, 0, [List.replicate blockSize none]⟩

/-- The block currently holding the queue head (Go field `head`). -/
def Queue.head (q : Queue α) : List (Option α) := q.blocks.getD q.headIdx []

/-- The block currently holding the queue tail (Go field `tail`). -/
def Queue.tail (q : Queue α) : List (Option α) := q.blocks.getD q.tailIdx []

/-- Pushes a new element into the queue, expanding it if necessary
(`Push` in `queue.go`).  The write `q.tail[q.tailOff] = data` mutates the
shared block, i.e. `blocks[tailIdx]`. -/
def Queue.push (q : Queue α) (data : α) : Queue α :=
  let blocks1 := q.blocks.set q.tailIdx (q.tail.set q.tailOff (some data))
  let tailOff1 := q.tailOff + 1
  if tailOff1 = blockSize then
    let tailIdx1 := (q.tailIdx + 1) % blocks1.length
    if tailIdx1 = q.headIdx then
      -- wrapped over to the head block: insert a fresh block at the tail slot
      let blocks2 := blocks1.take tailIdx1 ++
        List.replicate blockSize (none : Option α) :: blocks1.drop tailIdx1
      ⟨tailIdx1, q.headIdx + 1, 0, q.headOff, blocks2⟩
    else
      ⟨tailIdx1, q.headIdx, 0, q.headOff, blocks1⟩
  else
    ⟨q.tailIdx, q.headIdx, tailOff1, q.headOff, blocks1⟩

/-- Pops out an element from the queue; no bounds checking is done
(`Pop` in `queue.go`).  The popped slot is overwritten with the neutral
value `none` (Go `nil`). -/
def Queue.pop (q : Queue α) : Option α × Queue α :=
  let res := q.head.getD q.headOff none
  let blocks1 := q.blocks.set q.headIdx (q.head.set q.headOff none)
  let headOff1 := q.headOff + 1
  if headOff1 = blockSize then
    (res, ⟨q.tailIdx, (q.headIdx + 1) % blocks1.length, q.tailOff, 0, blocks1⟩)
  else
    (res, ⟨q.tailIdx, q.headIdx, q.tailOff, headOff1, blocks1⟩)

/-- Returns the first element in the queue; no bounds checking is done
(`Front` in `queue.go`). -/
def Queue.front (q : Queue α) : Option α := q.head.getD q.headOff none

/-- Checks whether the queue is empty (`Empty` in `queue.go`). -/
def Queue.empty (q : Queue α) : Bool :=
  q.headIdx == q.tailIdx && q.headOff == q.tailOff

/-- Returns the number of elements in the queue (`Size` in `queue.go`);
Go `int` arithmetic is modelled by `Int`. -/
def Queue.size (q : Queue α) : Int :=
  if q.tailIdx > q.headIdx then
    ((q.tailIdx : Int) - q.headIdx) * blockSize - q.headOff + q.tailOff
  else if q.tailIdx < q.headIdx then
    ((q.blocks.length : Int) - q.headIdx + q.tailIdx) * blockSize - q.headOff + q.tailOff
  else
    (q.tailOff : Int) - q.headOff

/-- Clears out the contents of the queue (`Reset` in `queue.go`): rewinds all
indices, reattaches head and tail to block 0, and overwrites every slot of
every block with the neutral value. -/
def Queue.reset (q : Queue α) : Queue α :=
  ⟨0, 0, 0, 0, q.blocks.map fun b => List.replicate b.length (none : Option α)⟩

/-! ## Queue: abstraction to a list (proof scaffolding) -/

/-- The blocks in logical ring order, starting at the head block. -/
def Queue.ringBlocks (q : Queue α) : List (List (Option α)) :=
  q.blocks.drop q.headIdx ++ q.blocks.take q.headIdx

/-- Logical distance (in blocks) from the head block to the tail block. -/
def Queue.dist (q : Queue α) : Nat :=
  (q.tailIdx + q.blocks.length - q.headIdx) % q.blocks.length

/-- The stored slots of the queue, head first: the segment of the ring between
the head position and the tail position. -/
def Queue.contents (q : Queue α) : List (Option α) :=
  (q.ringBlocks.flatten.take (q.dist * blockSize + q.tailOff)).drop q.headOff

/-- Structural well-formedness: all indices point into allocated storage. -/
def Queue.WFB (q : Queue α) : Prop :=
  q.headIdx < q.blocks.length ∧ q.tailIdx < q.blocks.length ∧
  q.headOff < blockSize ∧ q.tailOff < blockSize ∧
  ∀ b ∈ q.blocks, b.length = blockSize

instance (q : Queue α) : Decidable q.WFB := by
  unfold Queue.WFB; infer_instance

/-- Full invariant: structural well-formedness plus the ordering of the
offsets when head and tail share a block. -/
def Queue.WF (q : Queue α) : Prop :=
  q.WFB ∧ (q.headIdx = q.tailIdx → q.headOff ≤ q.tailOff)

instance (q : Queue α) : Decidable q.WF := by
  unfold Queue.WF; infer_instance

/-- A single queue operation, for reachability statements. -/
inductive QOp (α : Type) where
  | push (x : α)
  | pop
deriving DecidableEq

/-- Applies one operation to a queue. -/
def Queue.applyOp (q : Queue α) : QOp α → Queue α
  | .push x => q.push x
  | .pop => (q.pop).2

/-- Applies a sequence of operations to a queue. -/
def Queue.applyOps (q : Queue α) : List (QOp α) → Queue α
  | [] => q
  | op :: ops => (q.applyOp op).applyOps ops

/-- Number of pushes in an operation sequence. -/
def countPush : List (QOp α) → Nat
  | [] => 0
  | .push _ :: ops => countPush ops + 1
  | .pop :: ops => countPush ops

/-- Number of pops in an operation sequence. -/
def countPop : List (QOp α) → Nat
  | [] => 0
  | .push _ :: ops => countPop ops
  | .pop :: ops => countPop ops + 1

/-- Checks that, starting from `k` stored elements, no pop in the sequence hits
an empty queue, so every prefix has at most as many pops as pushes. -/
def validFrom (k : Nat) : List (QOp α) → Bool
  | [] => true
  | .push _ :: ops => validFrom (k + 1) ops
  | .pop :: ops => decide (0 < k) && validFrom (k - 1) ops

/-- Pushes a whole list of values, left to right. -/
def Queue.pushAll (q : Queue α) : List α → Queue α
  | [] => q
  | v :: vs => (q.push v).pushAll vs

/-- Pops `k` values, returning them in pop order together with the final
queue. -/
def Queue.popN (q : Queue α) : Nat → List (Option α) × Queue α
  | 0 => ([], q)
  | k + 1 =>
    let r := q.pop
    let rest := r.2.popN k
    (r.1 :: rest.1, rest.2)

/-! ## Link: modelled external collaborators -/

/-- Modelled from the spec: configured session-cipher key length in bytes
(`config.SessionCipherBits/8`); the exact value is irrelevant to the claims. -/
def keyLen : Nat := 16

/-- Modelled from the spec: block size of the session cipher, used as the
length of the counter-mode IV (`block.BlockSize()`). -/
def ivLen : Nat := 16

/-- Modelled from the spec: digest size of the configured session hash
(`config.SessionHash().Size()`), used for MAC salts and tags. -/
def macLen : Nat := 20

/-- Modelled from the spec: a fixed pseudo-random function standing in for the
keyed crypto primitives.  The claims use only that it is a function of its
inputs, never any cryptographic property. -/
def prf (seed : List Nat) (i : Nat) : Nat :=
  (seed.foldl (fun a b => (a * 31 + b) % 65536) 7 + i * 131) % 256

/-- Reads `n` bytes from a byte stream starting at position `pos`
(`io.ReadFull` on the key-derivation reader). -/
def readBytes (src : Nat → Nat) (pos n : Nat) : List Nat :=
  (List.range n).map fun i => src (pos + i)

/-- Modelled from the spec: the counter-mode keystream is a deterministic byte
stream derived from the key and the IV (`cipher.NewCTR`). -/
def ctrKeystream (key iv : List Nat) (i : Nat) : Nat :=
  prf (key ++ iv) i

/-- Modelled from the spec: the HMAC digest is a deterministic function of the
salt and of all bytes written since creation (`hmac.New`, `Sum`). -/
def hmacDigest (salt data : List Nat) : List Nat :=
  (List.range macLen).map fun i => prf (salt ++ data) i

/-- XORs a buffer against a keystream starting at stream position `pos`
(`cipher.Stream.XORKeyStream`, in-place in Go). -/
def xorWith (ks : Nat → Nat) : Nat → List Nat → List Nat
  | _, [] => []
  | pos, b :: bs => (b ^^^ ks pos) :: xorWith ks (pos + 1) bs

/-- State of one direction's stream cipher: the derived key and IV, and the
current keystream position (`cipher.Stream` for CTR mode). -/
structure CtrState where
  key : List Nat
  iv : List Nat
  pos : Nat
deriving DecidableEq

/-- Applies `XORKeyStream` to a buffer: XOR against the keystream and advance
the stream by the buffer length. -/
def CtrState.xors (c : CtrState) (buf : List Nat) : List Nat × CtrState :=
  (xorWith (ctrKeystream c.key c.iv) c.pos buf,
   ⟨c.key, c.iv, c.pos + buf.length⟩)

/-- State of one direction's MAC (`hash.Hash` from `hmac.New`): the salt it was
keyed with and every byte written since creation.  Nothing ever resets it. -/
structure Macer where
  salt : List Nat
  data : List Nat
deriving DecidableEq

/-- Appends bytes to the MAC state (`hash.Hash.Write`). -/
def Macer.write (m : Macer) (bs : List Nat) : Macer :=
  ⟨m.salt, m.data ++ bs⟩

/-- Current MAC digest (`Sum(nil)`), over everything written so far. -/
def Macer.sum (m : Macer) : List Nat :=
  hmacDigest m.salt m.data

/-- Modelled from the spec: the tagged `Meta` slot of a header.  The link
inspects it only to detect the close record (`closePacket` in `link.go`). -/
inductive MetaTag where
  | null
  | closeRec
  | app (tag : Nat)
deriving DecidableEq

/-- Modelled from the spec: a structured header value (`proto.Header`), opaque
to the link except for the tagged `Meta` field; the remaining fields are
collapsed into one opaque value. -/
structure Header where
  meta : MetaTag
  body : Nat
deriving DecidableEq

/-- Modelled from the spec: an application message (`proto.Message`): a header,
an arbitrary byte payload, and the "secure" flag asserting the payload has
already been encrypted (`Secure`/`KnownSecure`). -/
structure Message where
  Head : Header
  Data : List Nat
  secure : Bool
deriving DecidableEq

/-- Modelled from the spec: symmetric encode of a header value to bytes (the
gob codec, treated as an opaque symmetric codec per §6). -/
def encodeHeader (h : Header) : List Nat :=
  (match h.meta with
   | .null => [0, 0]
   | .closeRec => [1, 0]
   | .app t => [2, t]) ++ [h.body]

/-- Modelled from the spec: symmetric decode of one header value from the
front of a byte buffer, returning the value and the unconsumed bytes. -/
def decodeHeader : List Nat → Option (Header × List Nat)
  | a :: b :: c :: rest =>
    if a = 0 ∧ b = 0 then some (⟨.null, c⟩, rest)
    else if a = 1 ∧ b = 0 then some (⟨.closeRec, c⟩, rest)
    else if a = 2 then some (⟨.app b, c⟩, rest)
    else none
  | _ => none

/-! ## Link: data model and direct send/receive (from `proto/link/link.go`) -/

/-- Errors the link can produce in the modelled paths. -/
inductive LinkError where
  | unsecured
  | macMismatch (haveD wantD : List Nat)
  | codecErr
deriving DecidableEq

/-- The user-visible error text, mirroring the strings in `link.go`. -/
def LinkError.text : LinkError → String
  | .unsecured => "unsecured data, send denied"
  | .macMismatch haveD wantD =>
      "mac mismatch: have " ++ toString haveD ++ ", want " ++ toString wantD ++ "."
  | .codecErr => "gob decode error"

/-- The three frames written to the transport per message: ciphertext header,
payload, MAC tag. -/
structure Triple where
  hdr : List Nat
  body : List Nat
  tag : List Nat
deriving DecidableEq

/-- The cryptographic state of a link (`Link` in `link.go`): two half-duplex
cipher/MAC pairs and the two scratch buffers.  The transport handle and the
channels live outside this state. -/
structure LinkSt where
  inCipher : CtrState
  outCipher : CtrState
  inMacer : Macer
  outMacer : Macer
  inBuffer : List Nat
  outBuffer : List Nat
deriving DecidableEq

/-- Assembles the crypto primitives for a one-way channel
(`makeHalfDuplex` in `link.go`): reads the key, then the IV, then the MAC
salt from the key-derivation stream, and returns the stream cipher, the MAC
and the next read position. -/
def makeHalfDuplex (hkdf : Nat → Nat) (pos : Nat) : CtrState × Macer × Nat :=
  let key := readBytes hkdf pos keyLen
  let iv := readBytes hkdf (pos + keyLen) ivLen
  let salt := readBytes hkdf (pos + keyLen + ivLen) macLen
  (⟨key, iv, 0⟩, ⟨salt, []⟩, pos + keyLen + ivLen + macLen)

/-- Creates a new full-duplex link from the negotiated secret (`New` in
`link.go`): server keys are derived first, client keys second, and each side
assigns them to its in/out directions according to its role. -/
def New (hkdf : Nat → Nat) (server : Bool) : LinkSt :=
  let s := makeHalfDuplex hkdf 0
  let c := makeHalfDuplex hkdf s.2.2
  if server then ⟨c.1, s.1, c.2.1, s.2.1, [], []⟩
  else ⟨s.1, c.1, s.2.1, c.2.1, [], []⟩

/-- Result of one `SendDirect` call: the new link state, the frame triple
written to the transport (if any), and the error (if any). -/
structure SendRes where
  st : LinkSt
  out : Option Triple
  err : Option LinkError
deriving DecidableEq

/-- The message sending logic (`SendDirect` in `link.go`): refuse non-empty
unsecured payloads; encode the header into the outbound scratch buffer;
encrypt it in place; update the outbound MAC with ciphertext header then
payload; write the three frames; reset the scratch buffer (the MAC state is
not reset). -/
def sendDirect (l : LinkSt) (msg : Message) : SendRes :=
  if msg.secure = false ∧ 0 < msg.Data.length then
    ⟨l, none, some .unsecured⟩
  else
    let buf := l.outBuffer ++ encodeHeader msg.Head
    let xr := l.outCipher.xors buf
    let mac1 := (l.outMacer.write xr.1).write msg.Data
    ⟨⟨l.inCipher, xr.2, l.inMacer, mac1, l.inBuffer, []⟩,
     some ⟨xr.1, msg.Data, mac1.sum⟩, none⟩

/-- Result of one `RecvDirect` call: the received message (if any), the new
link state, and the error (if any). -/
structure RecvOut where
  msg : Option Message
  st : LinkSt
  err : Option LinkError
deriving DecidableEq

/-- The message receiving logic (`RecvDirect` in `link.go`), applied to one
frame triple read from the transport: update the inbound MAC with ciphertext
header then payload; compare the received tag to the computed digest, failing
with the mac-mismatch error on difference; otherwise decrypt the header in
place, decode it, attach the payload, and mark the message known-secure. -/
def recvDirect (l : LinkSt) (t : Triple) : RecvOut :=
  let mac1 := (l.inMacer.write t.hdr).write t.body
  if t.tag = mac1.sum then
    let xr := l.inCipher.xors t.hdr
    let buf := l.inBuffer ++ xr.1
    match decodeHeader buf with
    | some pr =>
      ⟨some ⟨pr.1, t.body, true⟩,
       ⟨xr.2, l.outCipher, mac1, l.outMacer, pr.2, l.outBuffer⟩, none⟩
    | none =>
      ⟨none, ⟨xr.2, l.outCipher, mac1, l.outMacer, buf, l.outBuffer⟩,
       some .codecErr⟩
  else
    ⟨none, ⟨l.inCipher, l.outCipher, mac1, l.outMacer, l.inBuffer, l.outBuffer⟩,
     some (.macMismatch mac1.sum t.tag)⟩

/-- Result of a sequence of sends: final state, all frame triples written in
order, first error if any. -/
structure SendSeq where
  st : LinkSt
  outs : List Triple
  err : Option LinkError
deriving DecidableEq

/-- Sends a list of messages in order via `sendDirect`, stopping at the first
error (the sender worker's per-message behaviour). -/
def sendAll (l : LinkSt) : List Message → SendSeq
  | [] => ⟨l, [], none⟩
  | m :: ms =>
    let r := sendDirect l m
    match r.err with
    | some e => ⟨r.st, [], some e⟩
    | none =>
      let rest := sendAll r.st ms
      ⟨rest.st, r.out.toList ++ rest.outs, rest.err⟩

/-- The close message built by the sender worker on shutdown
(`&proto.Message{Head: proto.Header{Meta: &closePacket{}}}` in `link.go`):
header `Meta` is the close record, everything else is the zero value. -/
def closeMsg : Message := ⟨⟨.closeRec, 0⟩, [], false⟩

/-- The sender worker's drain phase (`sender` in `link.go`, shutdown branch),
with `pending` the messages queued in the `Send` channel at shutdown: send
each pending message via `SendDirect`, stopping at the first error; if no
error occurred, send the final close-record message. -/
def senderDrain (l : LinkSt) (pending : List Message) : SendSeq :=
  let dr := sendAll l pending
  match dr.err with
  | some e => ⟨dr.st, dr.outs, some e⟩
  | none =>
    let cl := sendDirect dr.st closeMsg
    ⟨cl.st, dr.outs ++ cl.out.toList, cl.err⟩

/-- Result of a sequence of receives: messages delivered in order, final
state, first error if any. -/
structure RecvSeq where
  msgs : List Message
  st : LinkSt
  err : Option LinkError
deriving DecidableEq

/-- Receives a list of frame triples in order via `recvDirect`, stopping at
the first error (the receiver worker's per-message behaviour). -/
def recvAll (l : LinkSt) : List Triple → RecvSeq
  | [] => ⟨[], l, none⟩
  | t :: ts =>
    let r := recvDirect l t
    match r.msg, r.err with
    | some m, none =>
      let rest := recvAll r.st ts
      ⟨m :: rest.msgs, rest.st, rest.err⟩
    | _, _ => ⟨[], r.st, r.err⟩

/-- What the receiver delivers for a sent message: byte-identical header and
payload, marked known-secure. -/
def deliver (m : Message) : Message := ⟨m.Head, m.Data, true⟩

/-- The sendability precondition of `SendDirect`: the payload is empty or the
message is flagged secure. -/
def SecureOk (m : Message) : Prop := m.Data = [] ∨ m.secure = true

instance (m : Message) : Decidable (SecureOk m) := by
  unfold SecureOk; infer_instance

/-- Two directed half-duplex states are paired when the receiver's inbound
cipher and MAC state equal the sender's outbound ones and both scratch
buffers are clean — the situation produced by `New` at two peers with the
same key-derivation stream and opposite roles. -/
def Paired (s r : LinkSt) : Prop :=
  r.inCipher = s.outCipher ∧ r.inMacer = s.outMacer ∧
  r.inBuffer = [] ∧ s.outBuffer = []

instance (s r : LinkSt) : Decidable (Paired s r) := by
  unfold Paired; infer_instance

/-- The bytes a message contributes to the MAC chain: ciphertext header
followed by payload. -/
def macWord (t : Triple) : List Nat := t.hdr ++ t.body

/-- Sender `a` and receiver `b` round-trip the message list: every send
succeeds, and receiving the written frames yields the same messages in order,
byte-identical and marked secure. -/
def RoundTrips (a b : LinkSt) (msgs : List Message) : Prop :=
  (sendAll a msgs).err = none ∧
  (recvAll b (sendAll a msgs).outs).msgs = msgs.map deliver ∧
  (recvAll b (sendAll a msgs).outs).err = none

/-- The tags of `outs` form a running MAC chain from `mac0` to `mac1`: the
salt never changes, the accumulated bytes are exactly the ciphertext headers
and payloads in order, and the `i`-th tag is the digest over everything up to
and including message `i` — the MAC state is never reset. -/
def MacChained (outs : List Triple) (mac0 mac1 : Macer) : Prop :=
  mac1.salt = mac0.salt ∧
  mac1.data = mac0.data ++ (outs.map macWord).flatten ∧
  ∀ i, (hi : i < outs.length) → (outs.get ⟨i, hi⟩).tag =
    hmacDigest mac0.salt (mac0.data ++ ((outs.take (i + 1)).map macWord).flatten)

/-- The sender drain on `pending` sends every pending message in order, then
exactly one final close-record message with empty payload, and nothing after
it; a paired receiver `r` accepts all of it and decodes the final message's
`Meta` as the close record. -/
def DrainsThenCloses (s r : LinkSt) (pending : List Message) : Prop :=
  (sendAll s pending).err = none ∧
  ∃ ct, (sendDirect (sendAll s pending).st closeMsg).out = some ct ∧
    (sendDirect (sendAll s pending).st closeMsg).err = none ∧
    senderDrain s pending =
      ⟨(sendDirect (sendAll s pending).st closeMsg).st,
       (sendAll s pending).outs ++ [ct], none⟩ ∧
    ∃ m', (recvDirect (recvAll r (sendAll s pending).outs).st ct).msg = some m' ∧
      (recvDirect (recvAll r (sendAll s pending).outs).st ct).err = none ∧
      m'.Head.meta = MetaTag.closeRec ∧ m'.Data = []

/-! ## Link: support lemmas -/

theorem xorWith_length (ks : Nat → Nat) (pos : Nat) (bs : List Nat) :
    (xorWith ks pos bs).length = bs.length := by
  induction bs generalizing pos with
  | nil => rfl
  | cons b bs ih => simp [xorWith, ih]

theorem xorWith_xorWith (ks : Nat → Nat) (pos : Nat) (bs : List Nat) :
    xorWith ks pos (xorWith ks pos bs) = bs := by
  induction bs generalizing pos with
  | nil => rfl
  | cons b bs ih => simp [xorWith, ih, Nat.xor_cancel_right]

theorem decode_encode (h : Header) (rest : List Nat) :
    decodeHeader (encodeHeader h ++ rest) = some (h, rest) := by
  obtain ⟨meta, body⟩ := h
  cases meta <;> simp [encodeHeader, decodeHeader]

theorem decode_encode_nil (h : Header) :
    decodeHeader (encodeHeader h) = some (h, []) := by
  have := decode_encode h []
  rwa [List.append_nil] at this

/-- One paired round trip: a sendable message sent on one side is received
byte-identically on the other, marked secure, and the pairing persists. -/
theorem roundtrip_step (s r : LinkSt) (m : Message)
    (hp : Paired s r) (hm : SecureOk m) :
    (sendDirect s m).err = none ∧
    ∃ t, (sendDirect s m).out = some t ∧
      (recvDirect r t).msg = some (deliver m) ∧
      (recvDirect r t).err = none ∧
      Paired (sendDirect s m).st (recvDirect r t).st := by
  obtain ⟨hc, hmac, hrb, hsb⟩ := hp
  have hguard : ¬(m.secure = false ∧ 0 < m.Data.length) := by
    rcases hm with hd | hs
    · intro hx; rw [hd] at hx; exact absurd hx.2 (by simp)
    · intro hx; rw [hs] at hx; exact absurd hx.1 (by simp)
  refine ⟨by simp [sendDirect, hguard], ?_⟩
  refine ⟨⟨(s.outCipher.xors (s.outBuffer ++ encodeHeader m.Head)).1, m.Data,
    ((s.outMacer.write (s.outCipher.xors (s.outBuffer ++ encodeHeader m.Head)).1).write m.Data).sum⟩,
    by simp [sendDirect, hguard], ?_, ?_, ?_⟩ <;>
  · simp only [recvDirect, hc, hmac, hrb, hsb, List.nil_append, CtrState.xors,
      xorWith_xorWith, decode_encode_nil, if_pos rfl, sendDirect, if_neg hguard]
    simp [Paired, deliver, CtrState.xors, xorWith_length]

/-- Paired sequence round trip: a list of sendable messages sent in order on
one side is received in order, byte-identically and marked secure, on the
other; the pairing persists. -/
theorem roundtrip_all (msgs : List Message) : ∀ s r : LinkSt, Paired s r →
    (∀ m ∈ msgs, SecureOk m) →
    (sendAll s msgs).err = none ∧
    (recvAll r (sendAll s msgs).outs).msgs = msgs.map deliver ∧
    (recvAll r (sendAll s msgs).outs).err = none ∧
    Paired (sendAll s msgs).st (recvAll r (sendAll s msgs).outs).st := by
  induction msgs with
  | nil => intro s r hp _; exact ⟨rfl, rfl, rfl, hp⟩
  | cons m ms ih =>
    intro s r hp hall
    obtain ⟨he, t, hout, hmsg, herr, hp'⟩ := roundtrip_step s r m hp (hall m (by simp))
    obtain ⟨ihe, ihm, iherr, ihp⟩ :=
      ih (sendDirect s m).st (recvDirect r t).st hp' (fun x hx => hall x (by simp [hx]))
    have hsend : sendAll s (m :: ms) =
        ⟨(sendAll (sendDirect s m).st ms).st,
         t :: (sendAll (sendDirect s m).st ms).outs,
         (sendAll (sendDirect s m).st ms).err⟩ := by
      simp [sendAll, he, hout]
    have hrecv : recvAll r (t :: (sendAll (sendDirect s m).st ms).outs) =
        ⟨deliver m :: (recvAll (recvDirect r t).st (sendAll (sendDirect s m).st ms).outs).msgs,
         (recvAll (recvDirect r t).st (sendAll (sendDirect s m).st ms).outs).st,
         (recvAll (recvDirect r t).st (sendAll (sendDirect s m).st ms).outs).err⟩ := by
      simp [recvAll, hmsg, herr]
    simp only [hsend, hrecv]
    exact ⟨ihe, by simp [ihm], iherr, ihp⟩

/-! ## Claim theorems for the link: C5, C1, C2, C10 -/

/-- C5: `New` derives exactly two (key, IV, MAC salt) triples from the
key-derivation reader in a fixed order (the second read starts where the
first ended), assigns the first-derived cipher/MAC pair to the outbound
direction when the server flag is true and to the inbound direction when it
is false, and therefore two peers built from identical key-derivation streams
with opposite roles have each inbound state equal to the other's outbound
state. -/
theorem c5_role_derivation (hkdf : Nat → Nat) :
    New hkdf true = ⟨(makeHalfDuplex hkdf (makeHalfDuplex hkdf 0).2.2).1,
                     (makeHalfDuplex hkdf 0).1,
                     (makeHalfDuplex hkdf (makeHalfDuplex hkdf 0).2.2).2.1,
                     (makeHalfDuplex hkdf 0).2.1, [], []⟩ ∧
    New hkdf false = ⟨(makeHalfDuplex hkdf 0).1,
                      (makeHalfDuplex hkdf (makeHalfDuplex hkdf 0).2.2).1,
                      (makeHalfDuplex hkdf 0).2.1,
                      (makeHalfDuplex hkdf (makeHalfDuplex hkdf 0).2.2).2.1, [], []⟩ ∧
    (makeHalfDuplex hkdf 0).2.2 = keyLen + ivLen + macLen ∧
    (New hkdf false).inCipher = (New hkdf true).outCipher ∧
    (New hkdf false).inMacer = (New hkdf true).outMacer ∧
    (New hkdf true).inCipher = (New hkdf false).outCipher ∧
    (New hkdf true).inMacer = (New hkdf false).outMacer ∧
    Paired (New hkdf true) (New hkdf false) ∧
    Paired (New hkdf false) (New hkdf true) :=
  ⟨rfl, rfl, rfl, rfl, rfl, rfl, rfl, ⟨rfl, rfl, rfl, rfl⟩, ⟨rfl, rfl, rfl, rfl⟩⟩

/-- C1: for two links derived from the same key-derivation stream with
opposite roles, any sequence of messages whose payloads are empty or flagged
secure round-trips in order via `SendDirect`/`RecvDirect`: each received
message has byte-identical `Head` and `Data` and is marked secure.  Both
directions are stated. -/
theorem c1_round_trip (hkdf : Nat → Nat) (msgs : List Message)
    (hs : ∀ m ∈ msgs, SecureOk m) :
    RoundTrips (New hkdf true) (New hkdf false) msgs ∧
    RoundTrips (New hkdf false) (New hkdf true) msgs := by
  have h1 := roundtrip_all msgs (New hkdf true) (New hkdf false) ⟨rfl, rfl, rfl, rfl⟩ hs
  have h2 := roundtrip_all msgs (New hkdf false) (New hkdf true) ⟨rfl, rfl, rfl, rfl⟩ hs
  exact ⟨⟨h1.1, h1.2.1, h1.2.2.1⟩, ⟨h2.1, h2.2.1, h2.2.2.1⟩⟩

theorem c1_round_trip_witness :
    (∀ m ∈ [(⟨⟨.app 5, 9⟩, [1, 2, 3], true⟩ : Message), ⟨⟨.null, 4⟩, [], false⟩],
      SecureOk m) ∧
    (RoundTrips (New (fun i => (i * 7 + 3) % 256) true)
        (New (fun i => (i * 7 + 3) % 256) false)
        [⟨⟨.app 5, 9⟩, [1, 2, 3], true⟩, ⟨⟨.null, 4⟩, [], false⟩] ∧
     RoundTrips (New (fun i => (i * 7 + 3) % 256) false)
        (New (fun i => (i * 7 + 3) % 256) true)
        [⟨⟨.app 5, 9⟩, [1, 2, 3], true⟩, ⟨⟨.null, 4⟩, [], false⟩]) :=
  ⟨by decide, c1_round_trip (fun i => (i * 7 + 3) % 256)
    [⟨⟨.app 5, 9⟩, [1, 2, 3], true⟩, ⟨⟨.null, 4⟩, [], false⟩] (by decide)⟩

/-- C2: sending any message with non-empty `Data` that is not flagged secure
returns exactly the "unsecured data, send denied" error and writes nothing to
the transport. -/
theorem c2_unsecured_refusal (l : LinkSt) (m : Message)
    (h1 : m.secure = false) (h2 : m.Data ≠ []) :
    (sendDirect l m).err = some .unsecured ∧
    (sendDirect l m).out = none ∧
    LinkError.unsecured.text = "unsecured data, send denied" := by
  have hg : m.secure = false ∧ 0 < m.Data.length :=
    ⟨h1, by cases hd : m.Data with
      | nil => exact absurd hd h2
      | cons a as => simp [hd]⟩
  exact ⟨by simp [sendDirect, hg], by simp [sendDirect, hg], rfl⟩

theorem c2_unsecured_refusal_witness :
    ((⟨⟨.null, 0⟩, [120, 120], false⟩ : Message).secure = false ∧
     (⟨⟨.null, 0⟩, [120, 120], false⟩ : Message).Data ≠ []) ∧
    ((sendDirect (New (fun i => i % 256) true) ⟨⟨.null, 0⟩, [120, 120], false⟩).err =
        some .unsecured ∧
     (sendDirect (New (fun i => i % 256) true) ⟨⟨.null, 0⟩, [120, 120], false⟩).out = none ∧
     LinkError.unsecured.text = "unsecured data, send denied") :=
  ⟨by decide, c2_unsecured_refusal (New (fun i => i % 256) true)
    ⟨⟨.null, 0⟩, [120, 120], false⟩ (by decide) (by decide)⟩

/-- C10: when `SendDirect` rejects a message as unsecured it returns before
modifying any link state — the outbound cipher, outbound MAC, and outbound
scratch buffer (indeed the whole state) are unchanged — and any subsequent
send behaves exactly as if the rejected call had never happened. -/
theorem c10_rejection_atomic (l : LinkSt) (m : Message)
    (h1 : m.secure = false) (h2 : m.Data ≠ []) :
    (sendDirect l m).st.outCipher = l.outCipher ∧
    (sendDirect l m).st.outMacer = l.outMacer ∧
    (sendDirect l m).st.outBuffer = l.outBuffer ∧
    (sendDirect l m).st = l ∧
    ∀ m2 : Message, sendDirect (sendDirect l m).st m2 = sendDirect l m2 := by
  have hg : m.secure = false ∧ 0 < m.Data.length :=
    ⟨h1, by cases hd : m.Data with
      | nil => exact absurd hd h2
      | cons a as => simp [hd]⟩
  have hst : (sendDirect l m).st = l := by simp [sendDirect, hg]
  exact ⟨by rw [hst], by rw [hst], by rw [hst], hst, fun m2 => by rw [hst]⟩

theorem c10_rejection_atomic_witness :
    ((⟨⟨.app 1, 2⟩, [7], false⟩ : Message).secure = false ∧
     (⟨⟨.app 1, 2⟩, [7], false⟩ : Message).Data ≠ []) ∧
    ((sendDirect (New (fun i => i + 1) false) ⟨⟨.app 1, 2⟩, [7], false⟩).st.outCipher =
        (New (fun i => i + 1) false).outCipher ∧
     (sendDirect (New (fun i => i + 1) false) ⟨⟨.app 1, 2⟩, [7], false⟩).st.outMacer =
        (New (fun i => i + 1) false).outMacer ∧
     (sendDirect (New (fun i => i + 1) false) ⟨⟨.app 1, 2⟩, [7], false⟩).st.outBuffer =
        (New (fun i => i + 1) false).outBuffer ∧
     (sendDirect (New (fun i => i + 1) false) ⟨⟨.app 1, 2⟩, [7], false⟩).st =
        New (fun i => i + 1) false ∧
     ∀ m2 : Message,
       sendDirect (sendDirect (New (fun i => i + 1) false) ⟨⟨.app 1, 2⟩, [7], false⟩).st m2 =
         sendDirect (New (fun i => i + 1) false) m2) :=
  ⟨by decide, c10_rejection_atomic (New (fun i => i + 1) false)
    ⟨⟨.app 1, 2⟩, [7], false⟩ (by decide) (by decide)⟩

/-! ## MAC chaining (C3) -/

theorem sendDirect_success (l : LinkSt) (m : Message)
    (h : ¬(m.secure = false ∧ 0 < m.Data.length)) :
    sendDirect l m =
      ⟨⟨l.inCipher, (l.outCipher.xors (l.outBuffer ++ encodeHeader m.Head)).2, l.inMacer,
        (l.outMacer.write (l.outCipher.xors (l.outBuffer ++ encodeHeader m.Head)).1).write m.Data,
        l.inBuffer, []⟩,
       some ⟨(l.outCipher.xors (l.outBuffer ++ encodeHeader m.Head)).1, m.Data,
         ((l.outMacer.write (l.outCipher.xors (l.outBuffer ++ encodeHeader m.Head)).1).write
           m.Data).sum⟩,
       none⟩ := by
  simp [sendDirect, h]

theorem sendAll_cons_success (l : LinkSt) (m : Message) (ms : List Message)
    (h : (sendDirect l m).err = none) :
    sendAll l (m :: ms) =
      ⟨(sendAll (sendDirect l m).st ms).st,
       (sendDirect l m).out.toList ++ (sendAll (sendDirect l m).st ms).outs,
       (sendAll (sendDirect l m).st ms).err⟩ := by
  simp [sendAll, h]

theorem MacChained_cons (t : Triple) (outs : List Triple) (mac0 mac1 : Macer)
    (h1 : t.tag = hmacDigest mac0.salt (mac0.data ++ macWord t))
    (hm : MacChained outs ⟨mac0.salt, mac0.data ++ macWord t⟩ mac1) :
    MacChained (t :: outs) mac0 mac1 := by
  obtain ⟨hs, hd, ht⟩ := hm
  refine ⟨hs, ?_, ?_⟩
  · rw [hd]; simp
  · intro i hi
    cases i with
    | zero => simpa using h1
    | succ j =>
      have hj : j < outs.length := by simpa using hi
      have hgj := ht j hj
      have hget : (t :: outs).get ⟨j + 1, hi⟩ = outs.get ⟨j, hj⟩ := rfl
      rw [hget, hgj]
      simp

theorem sendAll_chain (msgs : List Message) : ∀ l : LinkSt,
    (sendAll l msgs).err = none →
    MacChained (sendAll l msgs).outs l.outMacer (sendAll l msgs).st.outMacer := by
  induction msgs with
  | nil =>
    intro l _
    exact ⟨rfl, by simp [sendAll], fun i hi => absurd hi (by simp [sendAll])⟩
  | cons m ms ih =>
    intro l hse
    by_cases hg : m.secure = false ∧ 0 < m.Data.length
    · exfalso; simp [sendAll, sendDirect, hg] at hse
    · have hsd := sendDirect_success l m hg
      have herr1 : (sendDirect l m).err = none := by rw [hsd]
      have hcons := sendAll_cons_success l m ms herr1
      rw [hcons] at hse ⊢
      have hse' : (sendAll (sendDirect l m).st ms).err = none := hse
      have IH := ih (sendDirect l m).st hse'
      rw [hsd] at IH ⊢
      simp only [Option.toList_some, List.singleton_append]
      apply MacChained_cons
      · simp [Macer.write, Macer.sum, macWord]
      · have hmac : ((l.outMacer.write
            (l.outCipher.xors (l.outBuffer ++ encodeHeader m.Head)).1).write m.Data) =
            (⟨l.outMacer.salt, l.outMacer.data ++
              macWord ⟨(l.outCipher.xors (l.outBuffer ++ encodeHeader m.Head)).1, m.Data,
                ((l.outMacer.write
                  (l.outCipher.xors (l.outBuffer ++ encodeHeader m.Head)).1).write
                    m.Data).sum⟩⟩ : Macer) := by
          simp [Macer.write, macWord]
        rw [← hmac]
        exact IH

theorem recvDirect_success (l : LinkSt) (t : Triple)
    (h : (recvDirect l t).err = none) :
    t.tag = ((l.inMacer.write t.hdr).write t.body).sum ∧
    (recvDirect l t).st.inMacer = (l.inMacer.write t.hdr).write t.body ∧
    ∃ m, (recvDirect l t).msg = some m := by
  by_cases hc : t.tag = ((l.inMacer.write t.hdr).write t.body).sum
  · refine ⟨hc, ?_, ?_⟩
    · simp only [recvDirect, if_pos hc]
      cases hdec : decodeHeader (l.inBuffer ++ (l.inCipher.xors t.hdr).1) with
      | none => simp [hdec]
      | some pr => simp [hdec]
    · simp only [recvDirect, if_pos hc] at h ⊢
      cases hdec : decodeHeader (l.inBuffer ++ (l.inCipher.xors t.hdr).1) with
      | none => rw [hdec] at h; simp at h
      | some pr => simp [hdec]
  · exfalso
    simp only [recvDirect, if_neg hc] at h
    simp at h

theorem recvAll_cons_success (l : LinkSt) (t : Triple) (ts : List Triple)
    (m : Message) (hm : (recvDirect l t).msg = some m)
    (he : (recvDirect l t).err = none) :
    recvAll l (t :: ts) =
      ⟨m :: (recvAll (recvDirect l t).st ts).msgs,
       (recvAll (recvDirect l t).st ts).st,
       (recvAll (recvDirect l t).st ts).err⟩ := by
  simp [recvAll, hm, he]

theorem recvAll_cons_fail (l : LinkSt) (t : Triple) (ts : List Triple)
    (he : (recvDirect l t).err ≠ none) :
    (recvAll l (t :: ts)).err = (recvDirect l t).err := by
  rcases hm : (recvDirect l t).msg with _ | m <;>
    rcases herr : (recvDirect l t).err with _ | e
  · exact absurd herr he
  · simp [recvAll, hm, herr]
  · exact absurd herr he
  · simp [recvAll, hm, herr]

theorem recvAll_chain (ts : List Triple) : ∀ r : LinkSt,
    (recvAll r ts).err = none →
    MacChained ts r.inMacer (recvAll r ts).st.inMacer := by
  induction ts with
  | nil =>
    intro r _
    exact ⟨rfl, by simp [recvAll], fun i hi => absurd hi (by simp)⟩
  | cons t ts ih =>
    intro r hre
    have hok : (recvDirect r t).err = none := by
      by_contra hne
      rw [recvAll_cons_fail r t ts hne] at hre
      exact hne hre
    obtain ⟨htag, hmac, m, hm⟩ := recvDirect_success r t hok
    rw [recvAll_cons_success r t ts m hm hok] at hre ⊢
    have IH := ih (recvDirect r t).st hre
    rw [hmac] at IH
    apply MacChained_cons
    · simpa [Macer.write, Macer.sum, macWord] using htag
    · have hrw : ((r.inMacer.write t.hdr).write t.body) =
          (⟨r.inMacer.salt, r.inMacer.data ++ macWord t⟩ : Macer) := by
        simp [Macer.write, macWord]
      rw [← hrw]
      exact IH

theorem sendAll_buffer (msgs : List Message) : ∀ l : LinkSt, msgs ≠ [] →
    (sendAll l msgs).err = none → (sendAll l msgs).st.outBuffer = [] := by
  induction msgs with
  | nil => intro l h; exact absurd rfl h
  | cons m ms ih =>
    intro l _ hse
    by_cases hg : m.secure = false ∧ 0 < m.Data.length
    · exfalso; simp [sendAll, sendDirect, hg] at hse
    · have hsd := sendDirect_success l m hg
      have herr1 : (sendDirect l m).err = none := by rw [hsd]
      have hcons := sendAll_cons_success l m ms herr1
      rw [hcons] at hse ⊢
      cases hms : ms with
      | nil => simp [sendAll, hsd]
      | cons m2 ms2 =>
        have hres := ih (sendDirect l m).st (by simp [hms]) hse
        rw [hms] at hres
        exact hres

/-- C3: neither `SendDirect` nor `RecvDirect` ever resets the MAC state:
after any successful run the outbound (resp. inbound) MAC salt is unchanged
and its accumulated bytes are exactly the ciphertext headers and payloads of
all messages in order, the tag sent (resp. checked) for message `n` is the
running HMAC digest over the concatenation of the ciphertext headers and
payloads of messages 1 through `n`, and only the scratch buffer is reset
between messages. -/
theorem c3_mac_never_reset (l r : LinkSt) (msgs : List Message) (ts : List Triple)
    (hse : (sendAll l msgs).err = none) (hre : (recvAll r ts).err = none) :
    MacChained (sendAll l msgs).outs l.outMacer (sendAll l msgs).st.outMacer ∧
    (msgs ≠ [] → (sendAll l msgs).st.outBuffer = []) ∧
    MacChained ts r.inMacer (recvAll r ts).st.inMacer :=
  ⟨sendAll_chain msgs l hse,
   fun hne => sendAll_buffer msgs l hne hse,
   recvAll_chain ts r hre⟩

theorem c3_mac_never_reset_witness :
    ((sendAll (New (fun i => (i * 3 + 1) % 256) true) [⟨⟨.app 2, 7⟩, [10, 20], true⟩]).err = none ∧
     (recvAll (New (fun i => (i * 3 + 1) % 256) false)
       (sendAll (New (fun i => (i * 3 + 1) % 256) true) [⟨⟨.app 2, 7⟩, [10, 20], true⟩]).outs).err =
       none) ∧
    (MacChained (sendAll (New (fun i => (i * 3 + 1) % 256) true) [⟨⟨.app 2, 7⟩, [10, 20], true⟩]).outs
       (New (fun i => (i * 3 + 1) % 256) true).outMacer
       (sendAll (New (fun i => (i * 3 + 1) % 256) true) [⟨⟨.app 2, 7⟩, [10, 20], true⟩]).st.outMacer ∧
     ([(⟨⟨.app 2, 7⟩, [10, 20], true⟩ : Message)] ≠ [] →
       (sendAll (New (fun i => (i * 3 + 1) % 256) true) [⟨⟨.app 2, 7⟩, [10, 20], true⟩]).st.outBuffer = []) ∧
     MacChained (sendAll (New (fun i => (i * 3 + 1) % 256) true) [⟨⟨.app 2, 7⟩, [10, 20], true⟩]).outs
       (New (fun i => (i * 3 + 1) % 256) false).inMacer
       (recvAll (New (fun i => (i * 3 + 1) % 256) false)
         (sendAll (New (fun i => (i * 3 + 1) % 256) true) [⟨⟨.app 2, 7⟩, [10, 20], true⟩]).outs).st.inMacer) :=
  ⟨⟨by decide, by decide⟩,
   c3_mac_never_reset (New (fun i => (i * 3 + 1) % 256) true)
     (New (fun i => (i * 3 + 1) % 256) false)
     [⟨⟨.app 2, 7⟩, [10, 20], true⟩]
     (sendAll (New (fun i => (i * 3 + 1) % 256) true) [⟨⟨.app 2, 7⟩, [10, 20], true⟩]).outs
     (by decide) (by decide)⟩

/-! ## Sender drain (C6) -/

/-- C6: when the sender worker receives a shutdown request with no prior
error, it first sends, in order via `SendDirect`, every message still pending
in the `Send` channel, then sends exactly one final message whose header
`Meta` is the close record and whose payload is empty, and nothing after it;
a paired peer verifies and decodes that final message as the close record. -/
theorem c6_drain_then_close (s r : LinkSt) (pending : List Message)
    (hp : Paired s r) (hs : ∀ m ∈ pending, SecureOk m) :
    closeMsg.Head.meta = MetaTag.closeRec ∧ closeMsg.Data = [] ∧
    DrainsThenCloses s r pending := by
  obtain ⟨hse, hmsgs, herrR, hp'⟩ := roundtrip_all pending s r hp hs
  obtain ⟨hce, ct, hcout, hcmsg, hcerr2, _⟩ :=
    roundtrip_step (sendAll s pending).st (recvAll r (sendAll s pending).outs).st
      closeMsg hp' (Or.inl rfl)
  refine ⟨rfl, rfl, hse, ct, hcout, hce, ?_, ?_⟩
  · simp [senderDrain, hse, hcout, hce]
  · exact ⟨deliver closeMsg, hcmsg, hcerr2, rfl, rfl⟩

theorem c6_drain_then_close_witness :
    (Paired (New (fun i => (i * 11 + 6) % 256) true) (New (fun i => (i * 11 + 6) % 256) false) ∧
     ∀ m ∈ [(⟨⟨.app 9, 1⟩, [5], true⟩ : Message)], SecureOk m) ∧
    (closeMsg.Head.meta = MetaTag.closeRec ∧ closeMsg.Data = [] ∧
     DrainsThenCloses (New (fun i => (i * 11 + 6) % 256) true)
       (New (fun i => (i * 11 + 6) % 256) false) [⟨⟨.app 9, 1⟩, [5], true⟩]) :=
  ⟨⟨by decide, by decide⟩,
   c6_drain_then_close (New (fun i => (i * 11 + 6) % 256) true)
     (New (fun i => (i * 11 + 6) % 256) false) [⟨⟨.app 9, 1⟩, [5], true⟩]
     (by decide) (by decide)⟩

/-! ## MAC mismatch behaviour (C4) -/

/-- Mismatching tags make `RecvDirect` return no message and the mac-mismatch
error carrying both the computed digest and the received tag; the inbound MAC
state keeps the accumulated bytes (it is not reset even on failure). -/
theorem recvDirect_mac_mismatch (l : LinkSt) (t : Triple)
    (h : t.tag ≠ ((l.inMacer.write t.hdr).write t.body).sum) :
    recvDirect l t =
      ⟨none,
       ⟨l.inCipher, l.outCipher, (l.inMacer.write t.hdr).write t.body, l.outMacer,
        l.inBuffer, l.outBuffer⟩,
       some (.macMismatch ((l.inMacer.write t.hdr).write t.body).sum t.tag)⟩ := by
  simp [recvDirect, h]

/-- C4 evaluation at a concrete mismatching input: `RecvDirect` returns no
message, the error carries both the computed digest and the received tag, its
text is exactly the "mac mismatch: have ..., want ..." diagnostic, and the
inbound MAC state retains the accumulated bytes.  (The comparison itself is
`bytes.Equal`, not a constant-time comparison — see the claim's status.) -/
theorem c4_mac_mismatch_eval :
    (recvDirect (New (fun i => (i * 5 + 2) % 256) false) ⟨[3, 1, 4], [1, 5], [9]⟩).msg = none ∧
    (recvDirect (New (fun i => (i * 5 + 2) % 256) false) ⟨[3, 1, 4], [1, 5], [9]⟩).err =
      some (LinkError.macMismatch
        ((((New (fun i => (i * 5 + 2) % 256) false).inMacer.write [3, 1, 4]).write [1, 5]).sum)
        [9]) ∧
    (recvDirect (New (fun i => (i * 5 + 2) % 256) false) ⟨[3, 1, 4], [1, 5], [9]⟩).st.inMacer =
      (((New (fun i => (i * 5 + 2) % 256) false).inMacer.write [3, 1, 4]).write [1, 5]) ∧
    LinkError.text (LinkError.macMismatch
        ((((New (fun i => (i * 5 + 2) % 256) false).inMacer.write [3, 1, 4]).write [1, 5]).sum)
        [9]) =
      "mac mismatch: have " ++
        toString ((((New (fun i => (i * 5 + 2) % 256) false).inMacer.write [3, 1, 4]).write
          [1, 5]).sum) ++ ", want " ++ toString ([9] : List Nat) ++ "." :=
  ⟨by decide, by decide, by decide, rfl⟩

/-! ## Queue: generic list helpers -/

theorem blockSize_pos : 0 < blockSize := by decide

theorem getD_append_first {β : Type} (xs ys : List β) (j : Nat) (d : β)
    (hj : j < xs.length) : (xs ++ ys).getD j d = xs.getD j d := by
  induction xs generalizing j with
  | nil => simp at hj
  | cons x xs ih =>
    cases j with
    | zero => rfl
    | succ j => simpa using ih j (by simpa using hj)

theorem getD_append_second {β : Type} (xs ys : List β) (j : Nat) (d : β)
    (hj : xs.length ≤ j) : (xs ++ ys).getD j d = ys.getD (j - xs.length) d := by
  induction xs generalizing j with
  | nil => simp
  | cons x xs ih =>
    cases j with
    | zero => simp at hj
    | succ j => simpa using ih j (by simpa using hj)

theorem getD_drop {β : Type} (bs : List β) (h j : Nat) (d : β) :
    (bs.drop h).getD j d = bs.getD (h + j) d := by
  induction bs generalizing h with
  | nil => simp
  | cons b bs ih =>
    cases h with
    | zero => simp
    | succ h => simp [Nat.succ_add, ih h]

theorem getD_take {β : Type} (bs : List β) (h j : Nat) (d : β) (hj : j < h) :
    (bs.take h).getD j d = bs.getD j d := by
  induction bs generalizing h j with
  | nil => simp
  | cons b bs ih =>
    cases h with
    | zero => omega
    | succ h =>
      cases j with
      | zero => rfl
      | succ j => simpa using ih h j (by omega)

theorem take_set_succ {β : Type} (l : List β) (p : Nat) (v : β) (hp : p < l.length) :
    (l.set p v).take (p + 1) = l.take p ++ [v] := by
  induction l generalizing p with
  | nil => simp at hp
  | cons x xs ih =>
    cases p with
    | zero => rfl
    | succ p => simpa using ih p (by simpa using hp)

theorem set_last_eq {β : Type} (l : List β) (p : Nat) (v : β)
    (hp : p + 1 = l.length) : l.set p v = l.take p ++ [v] := by
  have h1 := take_set_succ l p v (by omega)
  rw [hp] at h1
  rw [← List.length_set l p v] at h1
  rw [List.take_length] at h1
  exact h1.symm ▸ h1

theorem drop_append_first {β : Type} (A B : List β) (k : Nat) (hk : k ≤ A.length) :
    (A ++ B).drop k = A.drop k ++ B := by
  induction A generalizing k with
  | nil =>
    cases k with
    | zero => simp
    | succ k => simp at hk
  | cons a as ih =>
    cases k with
    | zero => simp
    | succ k => simpa using ih k (by simpa using hk)

theorem flatten_len {β : Type} (B : Nat) : ∀ bs : List (List β),
    (∀ b ∈ bs, b.length = B) → bs.flatten.length = bs.length * B := by
  intro bs
  induction bs with
  | nil => simp
  | cons b bs ih =>
    intro h
    have hb : b.length = B := h b (by simp)
    have hr := ih fun x hx => h x (by simp [hx])
    simp only [List.flatten_cons, List.length_append, hb, hr, List.length_cons]
    ring

theorem flatten_set {β : Type} (B : Nat) : ∀ (bs : List (List β)) (j off : Nat) (v : β),
    j < bs.length → off < B → (∀ b ∈ bs, b.length = B) →
    (bs.set j ((bs.getD j []).set off v)).flatten = bs.flatten.set (j * B + off) v := by
  intro bs
  induction bs with
  | nil => intro j off v hj; simp at hj
  | cons b bs ih =>
    intro j off v hj hoff hb
    have hbB : b.length = B := hb b (by simp)
    cases j with
    | zero =>
      simp only [List.getD_cons_zero, List.set_cons_zero, List.flatten_cons,
        Nat.zero_mul, Nat.zero_add]
      rw [List.set_append_left _ _ (by omega)]
    | succ j =>
      have hj' : j < bs.length := by simpa using hj
      simp only [List.getD_cons_succ, List.set_cons_succ, List.flatten_cons]
      rw [ih j off v hj' hoff (fun x hx => hb x (by simp [hx]))]
      have hidx : (j + 1) * B + off - b.length = j * B + off := by
        rw [hbB, Nat.succ_mul]; generalize j * B = K; omega
      rw [List.set_append_right _ _
        (by rw [hbB, Nat.succ_mul]; generalize j * B = K; omega), hidx]

theorem getD_lt_eq {β : Type} (l : List β) (j : Nat) (d : β) (hj : j < l.length) :
    l.getD j d = l[j] := by
  rw [List.getD_eq_getElem?_getD, List.getElem?_eq_getElem hj]; rfl

theorem getD_mem {β : Type} (l : List β) (j : Nat) (d : β) (hj : j < l.length) :
    l.getD j d ∈ l := by
  rw [getD_lt_eq l j d hj]; exact List.getElem_mem hj

theorem rot_set {β : Type} (bs : List β) (h i : Nat) (b : β)
    (hh : h < bs.length) (hi : i < bs.length) :
    (bs.set i b).drop h ++ (bs.set i b).take h =
      (bs.drop h ++ bs.take h).set ((i + bs.length - h) % bs.length) b := by
  have hlt : (bs.take h).length = h := by rw [List.length_take]; omega
  have hld : (bs.drop h).length = bs.length - h := by rw [List.length_drop]
  rcases Nat.lt_or_ge i h with hih | hih
  · have hidx : (i + bs.length - h) % bs.length = bs.length - h + i := by
      rw [Nat.mod_eq_of_lt (by omega)]; omega
    rw [hidx, List.drop_set, if_pos hih, List.set_take,
      List.set_append_right _ _ (by omega)]
    have hi2 : bs.length - h + i - (bs.drop h).length = i := by rw [hld]; omega
    rw [hi2]
  · have hidx : (i + bs.length - h) % bs.length = i - h := by
      have h1 : i + bs.length - h = (i - h) + bs.length := by omega
      rw [h1, Nat.add_mod_right]
      exact Nat.mod_eq_of_lt (by omega)
    rw [hidx, List.drop_set, if_neg (by omega), List.set_take,
      List.set_eq_of_length_le (l := bs.take h) (by rw [hlt]; omega),
      List.set_append_left _ _ (by rw [hld]; omega)]

theorem rot_getD {β : Type} (bs : List β) (h i : Nat) (d : β)
    (hh : h < bs.length) (hi : i < bs.length) :
    (bs.drop h ++ bs.take h).getD ((i + bs.length - h) % bs.length) d =
      bs.getD i d := by
  have hlt : (bs.take h).length = h := by rw [List.length_take]; omega
  have hld : (bs.drop h).length = bs.length - h := by rw [List.length_drop]
  rcases Nat.lt_or_ge i h with hih | hih
  · have hidx : (i + bs.length - h) % bs.length = bs.length - h + i := by
      rw [Nat.mod_eq_of_lt (by omega)]; omega
    rw [hidx, getD_append_second _ _ _ _ (by rw [hld]; omega)]
    have hi2 : bs.length - h + i - (bs.drop h).length = i := by rw [hld]; omega
    rw [hi2, getD_take _ _ _ _ hih]
  · have hidx : (i + bs.length - h) % bs.length = i - h := by
      have h1 : i + bs.length - h = (i - h) + bs.length := by omega
      rw [h1, Nat.add_mod_right]
      exact Nat.mod_eq_of_lt (by omega)
    rw [hidx, getD_append_first _ _ _ _ (by rw [hld]; omega), getD_drop]
    congr 1
    omega

/-! ## Queue: ring and distance facts -/

theorem ring_length (q : Queue α) (hh : q.headIdx < q.blocks.length) :
    q.ringBlocks.length = q.blocks.length := by
  unfold Queue.ringBlocks
  rw [List.length_append, List.length_drop, List.length_take]
  omega

theorem ring_uniform (q : Queue α) (hb : ∀ b ∈ q.blocks, b.length = blockSize) :
    ∀ b ∈ q.ringBlocks, b.length = blockSize := by
  intro b hbmem
  unfold Queue.ringBlocks at hbmem
  rcases List.mem_append.mp hbmem with hm | hm
  · exact hb b ((List.drop_sublist _ _).subset hm)
  · exact hb b ((List.take_sublist _ _).subset hm)

theorem ring_flatten_length (q : Queue α) (hh : q.headIdx < q.blocks.length)
    (hb : ∀ b ∈ q.blocks, b.length = blockSize) :
    q.ringBlocks.flatten.length = q.blocks.length * blockSize := by
  rw [flatten_len blockSize _ (ring_uniform q hb), ring_length q hh]

theorem dist_lt (q : Queue α) (hh : q.headIdx < q.blocks.length) :
    q.dist < q.blocks.length :=
  Nat.mod_lt _ (by omega)

theorem dist_eq_if (q : Queue α) (hh : q.headIdx < q.blocks.length)
    (ht : q.tailIdx < q.blocks.length) :
    q.dist = if q.headIdx ≤ q.tailIdx then q.tailIdx - q.headIdx
             else q.tailIdx + q.blocks.length - q.headIdx := by
  unfold Queue.dist
  rcases le_or_lt q.headIdx q.tailIdx with hle | hlt
  · rw [if_pos hle]
    have h1 : q.tailIdx + q.blocks.length - q.headIdx =
        (q.tailIdx - q.headIdx) + q.blocks.length := by omega
    rw [h1, Nat.add_mod_right]
    exact Nat.mod_eq_of_lt (by omega)
  · rw [if_neg (by omega)]
    exact Nat.mod_eq_of_lt (by omega)

theorem dist_zero_iff (q : Queue α) (hh : q.headIdx < q.blocks.length)
    (ht : q.tailIdx < q.blocks.length) :
    q.dist = 0 ↔ q.headIdx = q.tailIdx := by
  rw [dist_eq_if q hh ht]
  rcases le_or_lt q.headIdx q.tailIdx with hle | hlt
  · rw [if_pos hle]; omega
  · rw [if_neg (by omega)]; omega

theorem write_flatten (q : Queue α) (v : Option α)
    (hh : q.headIdx < q.blocks.length) (ht : q.tailIdx < q.blocks.length)
    (hto : q.tailOff < blockSize) (hb : ∀ b ∈ q.blocks, b.length = blockSize) :
    ((q.blocks.set q.tailIdx (q.tail.set q.tailOff v)).drop q.headIdx ++
     (q.blocks.set q.tailIdx (q.tail.set q.tailOff v)).take q.headIdx).flatten =
      q.ringBlocks.flatten.set (q.dist * blockSize + q.tailOff) v := by
  rw [rot_set q.blocks q.headIdx q.tailIdx _ hh ht]
  have hget : q.tail = q.ringBlocks.getD q.dist [] :=
    (rot_getD q.blocks q.headIdx q.tailIdx [] hh ht).symm
  rw [show ((q.blocks.drop q.headIdx ++ q.blocks.take q.headIdx).set
      ((q.tailIdx + q.blocks.length - q.headIdx) % q.blocks.length)
      (q.tail.set q.tailOff v)) =
    (q.ringBlocks.set q.dist ((q.ringBlocks.getD q.dist []).set q.tailOff v)) from by
      rw [← hget]; rfl]
  exact flatten_set blockSize q.ringBlocks q.dist q.tailOff v
    (by rw [ring_length q hh]; exact dist_lt q hh) hto (ring_uniform q hb)

theorem contents_facts (q : Queue α) (hwf : q.WF) :
    q.contents.length = q.dist * blockSize + q.tailOff - q.headOff ∧
    q.headOff ≤ q.dist * blockSize + q.tailOff ∧
    q.dist * blockSize + blockSize ≤ q.blocks.length * blockSize := by
  obtain ⟨⟨hh, ht, hho, hto, hb⟩, hord⟩ := hwf
  have hflat := ring_flatten_length q hh hb
  have hd := dist_lt q hh
  have hub : q.dist * blockSize + blockSize ≤ q.blocks.length * blockSize := by
    have hm := Nat.mul_le_mul_right blockSize (show q.dist + 1 ≤ q.blocks.length by omega)
    rw [Nat.succ_mul] at hm
    exact hm
  have hlo : q.headOff ≤ q.dist * blockSize + q.tailOff := by
    rcases Nat.eq_zero_or_pos q.dist with h0 | hpos
    · have heq := (dist_zero_iff q hh ht).mp h0
      rw [h0, Nat.zero_mul, Nat.zero_add]
      omega
    · have hB : blockSize ≤ q.dist * blockSize := by
        have := Nat.mul_le_mul_right blockSize hpos
        rwa [Nat.one_mul] at this
      omega
  refine ⟨?_, hlo, hub⟩
  unfold Queue.contents
  rw [List.length_drop, List.length_take, hflat, Nat.min_eq_left (by omega)]

theorem size_eq_contents (q : Queue α) (hwf : q.WF) :
    q.size = (q.contents.length : Int) := by
  obtain ⟨hlen, hlo, hub⟩ := contents_facts q hwf
  obtain ⟨⟨hh, ht, hho, hto, hb⟩, hord⟩ := hwf
  rw [hlen]
  unfold Queue.size
  rcases Nat.lt_trichotomy q.tailIdx q.headIdx with hlt | heq | hgt
  · rw [if_neg (by omega), if_pos hlt]
    have hdv : q.dist = q.tailIdx + q.blocks.length - q.headIdx := by
      rw [dist_eq_if q hh ht, if_neg (by omega)]
    rw [hdv] at hlo ⊢
    have hcast : ((q.blocks.length : Int) - q.headIdx + q.tailIdx) * blockSize =
        (((q.tailIdx + q.blocks.length - q.headIdx) * blockSize : Nat) : Int) := by
      have h1 : ((q.blocks.length : Int) - q.headIdx + q.tailIdx) =
          ((q.tailIdx + q.blocks.length - q.headIdx : Nat) : Int) := by omega
      rw [h1]
      push_cast
      ring
    rw [hcast]
    omega
  · rw [if_neg (by omega), if_neg (by omega)]
    have hdv : q.dist = 0 := (dist_zero_iff q hh ht).mpr heq.symm
    rw [hdv] at hlo ⊢
    rw [Nat.zero_mul] at hlo ⊢
    omega
  · rw [if_pos hgt]
    have hdv : q.dist = q.tailIdx - q.headIdx := by
      rw [dist_eq_if q hh ht, if_pos (by omega)]
    rw [hdv] at hlo ⊢
    have hcast : ((q.tailIdx : Int) - q.headIdx) * blockSize =
        (((q.tailIdx - q.headIdx) * blockSize : Nat) : Int) := by
      have h1 : ((q.tailIdx : Int) - q.headIdx) =
          ((q.tailIdx - q.headIdx : Nat) : Int) := by omega
      rw [h1]
      push_cast
      ring
    rw [hcast]
    omega

theorem empty_iff_contents (q : Queue α) (hwf : q.WF) :
    q.empty = true ↔ q.contents = [] := by
  obtain ⟨hlen, hlo, hub⟩ := contents_facts q hwf
  obtain ⟨⟨hh, ht, hho, hto, hb⟩, hord⟩ := hwf
  unfold Queue.empty
  rw [Bool.and_eq_true, beq_iff_eq, beq_iff_eq, ← List.length_eq_zero, hlen]
  constructor
  · rintro ⟨h1, h2⟩
    have hd0 : q.dist = 0 := (dist_zero_iff q hh ht).mpr h1
    rw [hd0, Nat.zero_mul]
    omega
  · intro h0
    rcases Nat.eq_zero_or_pos q.dist with hd0 | hpos
    · have heq := (dist_zero_iff q hh ht).mp hd0
      rw [hd0, Nat.zero_mul] at h0
      exact ⟨heq, by omega⟩
    · exfalso
      have hB : blockSize ≤ q.dist * blockSize := by
        have := Nat.mul_le_mul_right blockSize hpos
        rwa [Nat.one_mul] at this
      omega

/-! ## Queue: push preserves the abstraction -/

theorem blocks_set_uniform {α : Type} (bs : List (List (Option α))) (i off : Nat) (v : Option α)
    (hi : i < bs.length) (hb : ∀ b ∈ bs, b.length = blockSize) :
    ∀ b ∈ bs.set i ((bs.getD i []).set off v), b.length = blockSize := by
  intro b hbm
  rcases List.mem_or_eq_of_mem_set hbm with hm | he
  · exact hb b hm
  · rw [he, List.length_set]
    exact hb (bs.getD i []) (getD_mem bs i [] hi)

theorem dist_succ_arith (n h t : Nat) (hh : h < n) (ht : t < n)
    (hne : (t + 1) % n ≠ h) :
    ((t + 1) % n + n - h) % n = (t + n - h) % n + 1 ∧ (t + n - h) % n + 1 < n := by
  rcases Nat.lt_or_ge (t + 1) n with hlt | hge
  · rw [Nat.mod_eq_of_lt hlt] at hne ⊢
    rcases le_or_lt h t with hle | hlt2
    · have e1 : (t + n - h) % n = t - h := by
        have hx : t + n - h = (t - h) + n := by omega
        rw [hx, Nat.add_mod_right]
        exact Nat.mod_eq_of_lt (by omega)
      have e2 : (t + 1 + n - h) % n = t + 1 - h := by
        have hx : t + 1 + n - h = (t + 1 - h) + n := by omega
        rw [hx, Nat.add_mod_right]
        exact Nat.mod_eq_of_lt (by omega)
      rw [e1, e2]
      omega
    · have h2 : t + 1 < h := by omega
      have e1 : (t + n - h) % n = t + n - h := Nat.mod_eq_of_lt (by omega)
      have e2 : (t + 1 + n - h) % n = t + 1 + n - h := Nat.mod_eq_of_lt (by omega)
      rw [e1, e2]
      omega
  · have hteq : t + 1 = n := by omega
    have e0 : (t + 1) % n = 0 := by rw [hteq, Nat.mod_self]
    rw [e0] at hne ⊢
    have e1 : (t + n - h) % n = n - 1 - h := by
      have hx : t + n - h = (n - 1 - h) + n := by omega
      rw [hx, Nat.add_mod_right]
      exact Nat.mod_eq_of_lt (by omega)
    have e2 : (0 + n - h) % n = n - h := by
      rw [Nat.zero_add]
      exact Nat.mod_eq_of_lt (by omega)
    rw [e1, e2]
    omega

theorem dist_last_arith (n h t : Nat) (hh : h < n) (ht : t < n)
    (hcol : (t + 1) % n = h) : (t + n - h) % n = n - 1 := by
  rcases Nat.lt_or_ge (t + 1) n with hlt | hge
  · rw [Nat.mod_eq_of_lt hlt] at hcol
    have hx : t + n - h = n - 1 := by omega
    rw [hx]
    exact Nat.mod_eq_of_lt (by omega)
  · have hteq : t + 1 = n := by omega
    have e0 : (t + 1) % n = 0 := by rw [hteq, Nat.mod_self]
    rw [e0] at hcol
    have hx : t + n - h = (n - 1) + n := by omega
    rw [hx, Nat.add_mod_right]
    exact Nat.mod_eq_of_lt (by omega)

theorem push_spec_noWrap (q : Queue α) (x : α) (hwf : q.WF)
    (hfull : q.tailOff + 1 ≠ blockSize) :
    (q.push x).WF ∧ (q.push x).contents = q.contents ++ [some x] := by
  obtain ⟨hlen, hlo, hub⟩ := contents_facts q hwf
  obtain ⟨⟨hh, ht, hho, hto, hb⟩, hord⟩ := hwf
  have hflat := ring_flatten_length q hh hb
  have hwrite := write_flatten q (some x) hh ht hto hb
  have hq : q.push x = ⟨q.tailIdx, q.headIdx, q.tailOff + 1, q.headOff,
      q.blocks.set q.tailIdx (q.tail.set q.tailOff (some x))⟩ := by
    simp only [Queue.push]
    rw [if_neg hfull]
  rw [hq]
  constructor
  · refine ⟨⟨?_, ?_, ?_, ?_, ?_⟩, ?_⟩
    · rw [List.length_set]; exact hh
    · rw [List.length_set]; exact ht
    · exact hho
    · show q.tailOff + 1 < blockSize
      omega
    · exact blocks_set_uniform q.blocks q.tailIdx q.tailOff (some x) ht hb
    · intro he
      exact le_trans (hord he) (Nat.le_succ _)
  · have hdist1 : (Queue.mk q.tailIdx q.headIdx (q.tailOff + 1) q.headOff
        (q.blocks.set q.tailIdx (q.tail.set q.tailOff (some x)))).dist = q.dist := by
      unfold Queue.dist
      simp only [List.length_set]
    have hring1 : (Queue.mk q.tailIdx q.headIdx (q.tailOff + 1) q.headOff
        (q.blocks.set q.tailIdx (q.tail.set q.tailOff (some x)))).ringBlocks.flatten =
        q.ringBlocks.flatten.set (q.dist * blockSize + q.tailOff) (some x) := hwrite
    unfold Queue.contents
    dsimp only
    rw [hdist1, hring1]
    rw [show q.dist * blockSize + (q.tailOff + 1) =
      (q.dist * blockSize + q.tailOff) + 1 from by omega]
    rw [take_set_succ _ _ _ (by rw [hflat]; omega)]
    rw [drop_append_first _ _ _
      (by rw [List.length_take, hflat, Nat.min_eq_left (by omega)]; exact hlo)]

theorem push_spec_wrap (q : Queue α) (x : α) (hwf : q.WF)
    (hfull : q.tailOff + 1 = blockSize)
    (hcol : (q.tailIdx + 1) % q.blocks.length ≠ q.headIdx) :
    (q.push x).WF ∧ (q.push x).contents = q.contents ++ [some x] := by
  obtain ⟨hlen, hlo, hub⟩ := contents_facts q hwf
  obtain ⟨⟨hh, ht, hho, hto, hb⟩, hord⟩ := hwf
  have hflat := ring_flatten_length q hh hb
  have hwrite := write_flatten q (some x) hh ht hto hb
  obtain ⟨hd1, hd2⟩ := dist_succ_arith q.blocks.length q.headIdx q.tailIdx hh ht hcol
  have hq : q.push x = ⟨(q.tailIdx + 1) % q.blocks.length, q.headIdx, 0, q.headOff,
      q.blocks.set q.tailIdx (q.tail.set q.tailOff (some x))⟩ := by
    simp only [Queue.push, List.length_set]
    rw [if_pos hfull, if_neg hcol]
  rw [hq]
  constructor
  · refine ⟨⟨?_, ?_, ?_, ?_, ?_⟩, ?_⟩
    · rw [List.length_set]; exact hh
    · rw [List.length_set]; exact Nat.mod_lt _ (by omega)
    · exact hho
    · show (0 : Nat) < blockSize
      exact blockSize_pos
    · exact blocks_set_uniform q.blocks q.tailIdx q.tailOff (some x) ht hb
    · intro he
      exact absurd he.symm hcol
  · have hdist1 : (Queue.mk ((q.tailIdx + 1) % q.blocks.length) q.headIdx 0 q.headOff
        (q.blocks.set q.tailIdx (q.tail.set q.tailOff (some x)))).dist = q.dist + 1 := by
      unfold Queue.dist
      simp only [List.length_set]
      exact hd1
    have hring1 : (Queue.mk ((q.tailIdx + 1) % q.blocks.length) q.headIdx 0 q.headOff
        (q.blocks.set q.tailIdx (q.tail.set q.tailOff (some x)))).ringBlocks.flatten =
        q.ringBlocks.flatten.set (q.dist * blockSize + q.tailOff) (some x) := hwrite
    unfold Queue.contents
    dsimp only
    rw [hdist1, hring1]
    rw [show (q.dist + 1) * blockSize + 0 =
      (q.dist * blockSize + q.tailOff) + 1 from by rw [Nat.succ_mul]; omega]
    rw [take_set_succ _ _ _ (by rw [hflat]; omega)]
    rw [drop_append_first _ _ _
      (by rw [List.length_take, hflat, Nat.min_eq_left (by omega)]; exact hlo)]

theorem take_append_exact {β : Type} (A B : List β) (k : Nat) :
    (A ++ B).take (A.length + k) = A ++ B.take k := by
  induction A with
  | nil => simp
  | cons a as ih => simp [Nat.succ_add, ih]

theorem drop_append_exact {β : Type} (A B : List β) (k : Nat) :
    (A ++ B).drop (A.length + k) = B.drop k := by
  induction A with
  | nil => simp
  | cons a as ih => simp [Nat.succ_add, ih]

theorem push_spec_insert (q : Queue α) (x : α) (hwf : q.WF)
    (hfull : q.tailOff + 1 = blockSize)
    (hcol : (q.tailIdx + 1) % q.blocks.length = q.headIdx) :
    (q.push x).WF ∧ (q.push x).contents = q.contents ++ [some x] := by
  obtain ⟨hlen, hlo, hub⟩ := contents_facts q hwf
  obtain ⟨⟨hh, ht, hho, hto, hb⟩, hord⟩ := hwf
  have hflat := ring_flatten_length q hh hb
  have hwrite := write_flatten q (some x) hh ht hto hb
  have hB1u := blocks_set_uniform q.blocks q.tailIdx q.tailOff (some x) ht hb
  have hdn : q.dist = q.blocks.length - 1 :=
    dist_last_arith q.blocks.length q.headIdx q.tailIdx hh ht hcol
  have hBn : blockSize ≤ q.blocks.length * blockSize := by
    have hm := Nat.mul_le_mul_right blockSize (show 1 ≤ q.blocks.length by omega)
    rwa [Nat.one_mul] at hm
  have hp1 : q.dist * blockSize + q.tailOff + 1 = q.blocks.length * blockSize := by
    rw [hdn, Nat.sub_mul, Nat.one_mul]
    omega
  have hA : ((q.blocks.set q.tailIdx (q.tail.set q.tailOff (some x))).take q.headIdx).length =
      q.headIdx := by
    rw [List.length_take, List.length_set]
    omega
  have hblen : ((q.blocks.set q.tailIdx (q.tail.set q.tailOff (some x))).take q.headIdx ++
      List.replicate blockSize (none : Option α) ::
        (q.blocks.set q.tailIdx (q.tail.set q.tailOff (some x))).drop q.headIdx).length =
      q.blocks.length + 1 := by
    rw [List.length_append, List.length_take, List.length_cons, List.length_drop,
      List.length_set]
    omega
  have hq : q.push x = ⟨q.headIdx, q.headIdx + 1, 0, q.headOff,
      (q.blocks.set q.tailIdx (q.tail.set q.tailOff (some x))).take q.headIdx ++
      List.replicate blockSize (none : Option α) ::
        (q.blocks.set q.tailIdx (q.tail.set q.tailOff (some x))).drop q.headIdx⟩ := by
    simp only [Queue.push, List.length_set]
    rw [if_pos hfull, if_pos hcol, hcol]
  rw [hq]
  constructor
  · refine ⟨⟨?_, ?_, ?_, ?_, ?_⟩, ?_⟩
    · dsimp only
      rw [hblen]; omega
    · dsimp only
      rw [hblen]; omega
    · exact hho
    · show (0 : Nat) < blockSize
      exact blockSize_pos
    · intro b hbm
      rcases List.mem_append.mp hbm with hm | hm
      · exact hB1u b ((List.take_sublist _ _).subset hm)
      · rcases List.mem_cons.mp hm with he | hm2
        · rw [he, List.length_replicate]
        · exact hB1u b ((List.drop_sublist _ _).subset hm2)
    · intro he
      dsimp only at he
      exact absurd he (by omega)
  · have hdist2 : (Queue.mk q.headIdx (q.headIdx + 1) 0 q.headOff
        ((q.blocks.set q.tailIdx (q.tail.set q.tailOff (some x))).take q.headIdx ++
         List.replicate blockSize (none : Option α) ::
           (q.blocks.set q.tailIdx (q.tail.set q.tailOff (some x))).drop q.headIdx)).dist =
        q.blocks.length := by
      unfold Queue.dist
      dsimp only
      rw [hblen]
      rw [show q.headIdx + (q.blocks.length + 1) - (q.headIdx + 1) = q.blocks.length from by
        omega]
      exact Nat.mod_eq_of_lt (by omega)
    have hringeq : (Queue.mk q.headIdx (q.headIdx + 1) 0 q.headOff
        ((q.blocks.set q.tailIdx (q.tail.set q.tailOff (some x))).take q.headIdx ++
         List.replicate blockSize (none : Option α) ::
           (q.blocks.set q.tailIdx (q.tail.set q.tailOff (some x))).drop q.headIdx)).ringBlocks =
        ((q.blocks.set q.tailIdx (q.tail.set q.tailOff (some x))).drop q.headIdx ++
         (q.blocks.set q.tailIdx (q.tail.set q.tailOff (some x))).take q.headIdx) ++
        [List.replicate blockSize (none : Option α)] := by
      unfold Queue.ringBlocks
      dsimp only
      rw [show q.headIdx + 1 =
        ((q.blocks.set q.tailIdx (q.tail.set q.tailOff (some x))).take q.headIdx).length + 1
        from by rw [hA]]
      rw [drop_append_exact, take_append_exact]
      simp [List.append_assoc]
    have hflat2 : (Queue.mk q.headIdx (q.headIdx + 1) 0 q.headOff
        ((q.blocks.set q.tailIdx (q.tail.set q.tailOff (some x))).take q.headIdx ++
         List.replicate blockSize (none : Option α) ::
           (q.blocks.set q.tailIdx (q.tail.set q.tailOff (some x))).drop q.headIdx)).ringBlocks.flatten =
        q.ringBlocks.flatten.set (q.dist * blockSize + q.tailOff) (some x) ++
          List.replicate blockSize (none : Option α) := by
      rw [hringeq, List.flatten_append, hwrite]
      simp
    unfold Queue.contents
    dsimp only
    rw [hdist2, hflat2, Nat.add_zero]
    rw [List.take_left' (by rw [List.length_set, hflat])]
    rw [set_last_eq _ _ _ (by rw [hflat]; omega)]
    rw [drop_append_first _ _ _
      (by rw [List.length_take, hflat, Nat.min_eq_left (by omega)]; exact hlo)]

theorem push_spec (q : Queue α) (x : α) (hwf : q.WF) :
    (q.push x).WF ∧ (q.push x).contents = q.contents ++ [some x] := by
  by_cases hfull : q.tailOff + 1 = blockSize
  · by_cases hcol : (q.tailIdx + 1) % q.blocks.length = q.headIdx
    · exact push_spec_insert q x hwf hfull hcol
    · exact push_spec_wrap q x hwf hfull hcol
  · exact push_spec_noWrap q x hwf hfull

/-! ## Queue: pop preserves the abstraction -/

theorem take_append_small {β : Type} (A B : List β) (k : Nat) (hk : k ≤ A.length) :
    (A ++ B).take k = A.take k := by
  induction A generalizing k with
  | nil =>
    simp only [List.length_nil, Nat.le_zero] at hk
    simp [hk]
  | cons a as ih =>
    cases k with
    | zero => simp
    | succ k => simp [ih k (by simpa using hk)]

theorem take_succ_via_drop {β : Type} (bs : List β) (h : Nat) (hh : h ≤ bs.length) :
    bs.take (h + 1) = bs.take h ++ (bs.drop h).take 1 := by
  conv_lhs => rw [← List.take_append_drop h bs]
  rw [show h + 1 = (bs.take h).length + 1 from by rw [List.length_take]; omega,
    take_append_exact]

theorem rot_rotate {β : Type} (bs : List β) (h : Nat) (hh : h < bs.length) :
    bs.drop ((h + 1) % bs.length) ++ bs.take ((h + 1) % bs.length) =
      ((bs.drop h ++ bs.take h).drop 1) ++ ((bs.drop h ++ bs.take h).take 1) := by
  have hld : (bs.drop h).length = bs.length - h := by rw [List.length_drop]
  rw [drop_append_first _ _ 1 (by omega), take_append_small _ _ 1 (by omega),
    List.drop_drop]
  rcases Nat.lt_or_ge (h + 1) bs.length with hlt | hge
  · rw [Nat.mod_eq_of_lt hlt]
    rw [take_succ_via_drop bs h (by omega), List.append_assoc]
  · have he : h + 1 = bs.length := by omega
    rw [show (h + 1) % bs.length = 0 from by rw [he, Nat.mod_self]]
    simp only [List.drop_zero, List.take_zero, List.append_nil]
    rw [he, List.drop_length, List.nil_append]
    have h2 := take_succ_via_drop bs h (by omega)
    rw [he, List.take_length] at h2
    exact h2

theorem head_ring_getD (q : Queue α) (hh : q.headIdx < q.blocks.length) :
    q.head = q.ringBlocks.getD 0 [] := by
  have hidx0 : (q.headIdx + q.blocks.length - q.headIdx) % q.blocks.length = 0 := by
    rw [show q.headIdx + q.blocks.length - q.headIdx = q.blocks.length from by omega]
    exact Nat.mod_self _
  have h1 := rot_getD q.blocks q.headIdx q.headIdx ([] : List (Option α)) hh hh
  rw [hidx0] at h1
  exact h1.symm

theorem head_ring_set (q : Queue α) (v : Option α)
    (hh : q.headIdx < q.blocks.length) :
    ((q.blocks.set q.headIdx (q.head.set q.headOff v)).drop q.headIdx ++
     (q.blocks.set q.headIdx (q.head.set q.headOff v)).take q.headIdx) =
      q.ringBlocks.set 0 (q.head.set q.headOff v) := by
  rw [rot_set q.blocks q.headIdx q.headIdx _ hh hh]
  have hidx0 : (q.headIdx + q.blocks.length - q.headIdx) % q.blocks.length = 0 := by
    rw [show q.headIdx + q.blocks.length - q.headIdx = q.blocks.length from by omega]
    exact Nat.mod_self _
  rw [hidx0]
  rfl

theorem write_flatten_head (q : Queue α) (v : Option α)
    (hh : q.headIdx < q.blocks.length) (hho : q.headOff < blockSize)
    (hb : ∀ b ∈ q.blocks, b.length = blockSize) :
    ((q.blocks.set q.headIdx (q.head.set q.headOff v)).drop q.headIdx ++
     (q.blocks.set q.headIdx (q.head.set q.headOff v)).take q.headIdx).flatten =
      q.ringBlocks.flatten.set q.headOff v := by
  rw [head_ring_set q v hh]
  rw [show q.head.set q.headOff v = (q.ringBlocks.getD 0 []).set q.headOff v from by
    rw [← head_ring_getD q hh]]
  have hres := flatten_set blockSize q.ringBlocks 0 q.headOff v
    (by rw [ring_length q hh]; omega) hho (ring_uniform q hb)
  rw [Nat.zero_mul, Nat.zero_add] at hres
  exact hres

theorem dist_head_succ_arith (n h t : Nat) (hh : h < n) (ht : t < n)
    (hpos : (t + n - h) % n ≠ 0) :
    (t + n - (h + 1) % n) % n + 1 = (t + n - h) % n := by
  rcases Nat.lt_or_ge (h + 1) n with hlt | hge
  · rw [Nat.mod_eq_of_lt hlt]
    rcases le_or_lt h t with hle | hlt2
    · have e1 : (t + n - h) % n = t - h := by
        rw [show t + n - h = (t - h) + n from by omega, Nat.add_mod_right]
        exact Nat.mod_eq_of_lt (by omega)
      have hlt3 : h < t := by
        rcases Nat.lt_or_ge h t with h3 | h3
        · exact h3
        · exfalso; apply hpos; rw [e1]; omega
      have e2 : (t + n - (h + 1)) % n = t - (h + 1) := by
        rw [show t + n - (h + 1) = (t - (h + 1)) + n from by omega, Nat.add_mod_right]
        exact Nat.mod_eq_of_lt (by omega)
      rw [e1, e2]
      omega
    · have e1 : (t + n - h) % n = t + n - h := Nat.mod_eq_of_lt (by omega)
      have e2 : (t + n - (h + 1)) % n = t + n - (h + 1) := Nat.mod_eq_of_lt (by omega)
      rw [e1, e2]
      omega
  · have he : h + 1 = n := by omega
    rw [show (h + 1) % n = 0 from by rw [he, Nat.mod_self]]
    have e1 : (t + n - h) % n = (t + 1) % n := by
      rw [show t + n - h = t + 1 from by omega]
    have ht1 : t + 1 < n := by
      rcases Nat.lt_or_ge (t + 1) n with h4 | h4
      · exact h4
      · exfalso; apply hpos
        rw [e1, show t + 1 = n from by omega, Nat.mod_self]
    have e2 : (t + n - 0) % n = t := by
      rw [Nat.sub_zero, Nat.add_mod_right]
      exact Nat.mod_eq_of_lt ht
    rw [e1, e2, Nat.mod_eq_of_lt ht1]

theorem pop_spec (q : Queue α) (c : Option α) (cs : List (Option α)) (hwf : q.WF)
    (hc : q.contents = c :: cs) :
    (q.pop).1 = c ∧ (q.pop).2.WF ∧ (q.pop).2.contents = cs := by
  obtain ⟨hlen, hlo, hub⟩ := contents_facts q hwf
  obtain ⟨⟨hh, ht, hho, hto, hb⟩, hord⟩ := hwf
  have hflat := ring_flatten_length q hh hb
  have hpos : q.headOff < q.dist * blockSize + q.tailOff := by
    have h1 := congrArg List.length hc
    rw [hlen] at h1
    simp only [List.length_cons] at h1
    omega
  unfold Queue.contents at hc
  -- value of the popped slot
  have hres : q.head.getD q.headOff none = c := by
    have h1 : ((q.ringBlocks.flatten.take (q.dist * blockSize + q.tailOff)).drop
        q.headOff).getD 0 none = c := by
      rw [hc]; rfl
    rw [getD_drop, Nat.add_zero, getD_take _ _ _ _ hpos] at h1
    rw [head_ring_getD q hh]
    rcases hr : q.ringBlocks with _ | ⟨b0, rest⟩
    · exfalso
      have h2 := ring_length q hh
      rw [hr] at h2
      simp at h2
      omega
    · have hb0 : b0.length = blockSize :=
        ring_uniform q hb b0 (by rw [hr]; exact List.mem_cons_self b0 rest)
      rw [hr] at h1
      simp only [List.flatten_cons] at h1
      rw [getD_append_first _ _ _ _ (by omega)] at h1
      simpa using h1
  by_cases hfullp : q.headOff + 1 = blockSize
  · -- the pop wraps the head to the next block
    have hd1 : 1 ≤ q.dist := by
      by_contra h0
      have hd0 : q.dist = 0 := by omega
      have heq := (dist_zero_iff q hh ht).mp hd0
      rw [hd0, Nat.zero_mul, Nat.zero_add] at hpos
      have := hord heq
      omega
    have hqp : q.pop = (q.head.getD q.headOff none,
        ⟨q.tailIdx, (q.headIdx + 1) % q.blocks.length, q.tailOff, 0,
         q.blocks.set q.headIdx (q.head.set q.headOff none)⟩) := by
      simp only [Queue.pop, List.length_set]
      rw [if_pos hfullp]
    rw [hqp]
    refine ⟨hres, ⟨⟨?_, ?_, ?_, ?_, ?_⟩, ?_⟩, ?_⟩
    · rw [List.length_set]; exact Nat.mod_lt _ (by omega)
    · rw [List.length_set]; exact ht
    · show (0 : Nat) < blockSize
      exact blockSize_pos
    · exact hto
    · exact blocks_set_uniform q.blocks q.headIdx q.headOff none hh hb
    · intro _
      exact Nat.zero_le _
    · -- contents after the wrap
      rcases hr : q.ringBlocks with _ | ⟨b0, rest⟩
      · exfalso
        have h2 := ring_length q hh
        rw [hr] at h2
        simp at h2
        omega
      have hb0 : b0.length = blockSize :=
        ring_uniform q hb b0 (by rw [hr]; exact List.mem_cons_self b0 rest)
      have hrest : rest.length = q.blocks.length - 1 := by
        have h2 := ring_length q hh
        rw [hr] at h2
        simp only [List.length_cons] at h2
        omega
      have hrestu : ∀ b ∈ rest, b.length = blockSize := by
        intro b hbm
        exact ring_uniform q hb b (by rw [hr]; exact List.mem_cons_of_mem b0 hbm)
      have hrestflat : rest.flatten.length = (q.blocks.length - 1) * blockSize := by
        rw [flatten_len blockSize rest hrestu, hrest]
      -- the written ring, then rotated by one block
      have hw1 : (q.blocks.set q.headIdx (q.head.set q.headOff none)).drop q.headIdx ++
          (q.blocks.set q.headIdx (q.head.set q.headOff none)).take q.headIdx =
          (q.head.set q.headOff none) :: rest := by
        rw [head_ring_set q none hh, hr]
        rfl
      have hlen1 : (q.blocks.set q.headIdx (q.head.set q.headOff none)).length =
          q.blocks.length := List.length_set q.blocks q.headIdx _
      have hring2 : (Queue.mk q.tailIdx ((q.headIdx + 1) % q.blocks.length) q.tailOff 0
          (q.blocks.set q.headIdx (q.head.set q.headOff none))).ringBlocks =
          rest ++ [q.head.set q.headOff none] := by
        unfold Queue.ringBlocks
        dsimp only
        have h3 := rot_rotate (q.blocks.set q.headIdx (q.head.set q.headOff none))
          q.headIdx (by rw [hlen1]; exact hh)
        rw [hlen1] at h3
        rw [h3, hw1]
        simp
      have hdist2 : (Queue.mk q.tailIdx ((q.headIdx + 1) % q.blocks.length) q.tailOff 0
          (q.blocks.set q.headIdx (q.head.set q.headOff none))).dist = q.dist - 1 := by
        unfold Queue.dist
        dsimp only
        rw [hlen1]
        have h4 := dist_head_succ_arith q.blocks.length q.headIdx q.tailIdx hh ht
          (by
            intro h0
            have h6 : q.dist = (q.tailIdx + q.blocks.length - q.headIdx) %
                q.blocks.length := rfl
            omega)
        have h5 : q.dist = (q.tailIdx + q.blocks.length - q.headIdx) % q.blocks.length :=
          rfl
        omega
      unfold Queue.contents
      dsimp only
      rw [hdist2, hring2, List.flatten_append]
      simp only [List.flatten_cons, List.flatten_nil, List.append_nil, List.drop_zero]
      -- the take stays inside the untouched part of the ring
      have hmul1 : q.dist * blockSize ≤ (q.blocks.length - 1) * blockSize :=
        Nat.mul_le_mul_right blockSize (by have := dist_lt q hh; omega)
      have hmul2 : (q.dist - 1) * blockSize = q.dist * blockSize - blockSize := by
        rw [Nat.sub_mul, Nat.one_mul]
      have hmulB : blockSize ≤ q.dist * blockSize := by
        have hm := Nat.mul_le_mul_right blockSize hd1
        rwa [Nat.one_mul] at hm
      rw [take_append_small _ _ _ (by rw [hrestflat, hmul2]; omega)]
      -- identify with the tail of the old contents
      have hsplit : q.ringBlocks.flatten.take (q.dist * blockSize + q.tailOff) =
          b0 ++ rest.flatten.take (q.dist * blockSize + q.tailOff - blockSize) := by
        rw [hr]
        simp only [List.flatten_cons]
        nth_rewrite 1 [show q.dist * blockSize + q.tailOff =
          b0.length + (q.dist * blockSize + q.tailOff - blockSize) from by
            rw [hb0]; omega]
        rw [take_append_exact]
      have hcs : cs = ((q.ringBlocks.flatten.take (q.dist * blockSize + q.tailOff)).drop
          q.headOff).drop 1 := by
        rw [hc]
        rfl
      rw [List.drop_drop, hsplit] at hcs
      rw [show q.headOff + 1 = b0.length + 0 from by rw [hb0]; omega] at hcs
      rw [drop_append_exact, List.drop_zero] at hcs
      rw [hcs, hmul2, show q.dist * blockSize - blockSize + q.tailOff =
        q.dist * blockSize + q.tailOff - blockSize from by omega]
  · -- the pop stays within the head block
    have hqp : q.pop = (q.head.getD q.headOff none,
        ⟨q.tailIdx, q.headIdx, q.tailOff, q.headOff + 1,
         q.blocks.set q.headIdx (q.head.set q.headOff none)⟩) := by
      simp only [Queue.pop, List.length_set]
      rw [if_neg hfullp]
    rw [hqp]
    refine ⟨hres, ⟨⟨?_, ?_, ?_, ?_, ?_⟩, ?_⟩, ?_⟩
    · rw [List.length_set]; exact hh
    · rw [List.length_set]; exact ht
    · show q.headOff + 1 < blockSize
      omega
    · exact hto
    · exact blocks_set_uniform q.blocks q.headIdx q.headOff none hh hb
    · intro he
      dsimp only at he ⊢
      have hd0 : q.dist = 0 := (dist_zero_iff q hh ht).mpr he
      rw [hd0, Nat.zero_mul, Nat.zero_add] at hpos
      omega
    · have hdist1 : (Queue.mk q.tailIdx q.headIdx q.tailOff (q.headOff + 1)
          (q.blocks.set q.headIdx (q.head.set q.headOff none))).dist = q.dist := by
        unfold Queue.dist
        simp only [List.length_set]
      have hring1 : (Queue.mk q.tailIdx q.headIdx q.tailOff (q.headOff + 1)
          (q.blocks.set q.headIdx (q.head.set q.headOff none))).ringBlocks.flatten =
          q.ringBlocks.flatten.set q.headOff none :=
        write_flatten_head q none hh hho hb
      unfold Queue.contents
      dsimp only
      rw [hdist1, hring1, List.set_take, List.drop_set, if_pos (by omega)]
      have hcs : cs = ((q.ringBlocks.flatten.take (q.dist * blockSize + q.tailOff)).drop
          q.headOff).drop 1 := by
        rw [hc]
        rfl
      rw [List.drop_drop] at hcs
      exact hcs.symm

theorem new_wf : (Queue.new : Queue α).WF ∧ (Queue.new : Queue α).contents = [] := by
  constructor
  · refine ⟨⟨?_, ?_, blockSize_pos, blockSize_pos, ?_⟩, fun _ => Nat.le_refl 0⟩
    · simp [Queue.new]
    · simp [Queue.new]
    · intro b hbm
      simp only [Queue.new, List.mem_singleton] at hbm
      rw [hbm, List.length_replicate]
  · unfold Queue.contents Queue.dist
    simp [Queue.new]

theorem wfb_push (q : Queue α) (x : α) (hwfb : q.WFB) : (q.push x).WFB := by
  obtain ⟨hh, ht, hho, hto, hb⟩ := hwfb
  have hB1u := blocks_set_uniform q.blocks q.tailIdx q.tailOff (some x) ht hb
  simp only [Queue.push, List.length_set]
  by_cases hfull : q.tailOff + 1 = blockSize
  · rw [if_pos hfull]
    by_cases hcol : (q.tailIdx + 1) % q.blocks.length = q.headIdx
    · rw [if_pos hcol]
      have hblen : ((q.blocks.set q.tailIdx (q.tail.set q.tailOff (some x))).take
          ((q.tailIdx + 1) % q.blocks.length) ++
          List.replicate blockSize (none : Option α) ::
          (q.blocks.set q.tailIdx (q.tail.set q.tailOff (some x))).drop
            ((q.tailIdx + 1) % q.blocks.length)).length = q.blocks.length + 1 := by
        rw [List.length_append, List.length_take, List.length_cons, List.length_drop,
          List.length_set]
        have := Nat.mod_lt (q.tailIdx + 1) (show 0 < q.blocks.length by omega)
        omega
      refine ⟨?_, ?_, hho, blockSize_pos, ?_⟩
      · dsimp only
        rw [hblen]
        omega
      · dsimp only
        rw [hblen]
        have := Nat.mod_lt (q.tailIdx + 1) (show 0 < q.blocks.length by omega)
        omega
      · intro b hbm
        rcases List.mem_append.mp hbm with hm | hm
        · exact hB1u b ((List.take_sublist _ _).subset hm)
        · rcases List.mem_cons.mp hm with he | hm2
          · rw [he, List.length_replicate]
          · exact hB1u b ((List.drop_sublist _ _).subset hm2)
    · rw [if_neg hcol]
      exact ⟨by rw [List.length_set]; exact hh,
             by rw [List.length_set]; exact Nat.mod_lt _ (by omega),
             hho, blockSize_pos, hB1u⟩
  · rw [if_neg hfull]
    exact ⟨by rw [List.length_set]; exact hh,
           by rw [List.length_set]; exact ht,
           hho, by dsimp only; omega, hB1u⟩

theorem wfb_pop (q : Queue α) (hwfb : q.WFB) : (q.pop).2.WFB := by
  obtain ⟨hh, ht, hho, hto, hb⟩ := hwfb
  have hB1u := blocks_set_uniform q.blocks q.headIdx q.headOff none hh hb
  simp only [Queue.pop, List.length_set]
  by_cases hfull : q.headOff + 1 = blockSize
  · rw [if_pos hfull]
    exact ⟨by rw [List.length_set]; exact Nat.mod_lt _ (by omega),
           by rw [List.length_set]; exact ht,
           blockSize_pos, hto, hB1u⟩
  · rw [if_neg hfull]
    exact ⟨by rw [List.length_set]; exact hh,
           by rw [List.length_set]; exact ht,
           by dsimp only; omega, hto, hB1u⟩

theorem wfb_reset (q : Queue α) (hwfb : q.WFB) : q.reset.WFB := by
  obtain ⟨hh, ht, hho, hto, hb⟩ := hwfb
  unfold Queue.reset
  refine ⟨?_, ?_, blockSize_pos, blockSize_pos, ?_⟩
  · dsimp only
    rw [List.length_map]
    omega
  · dsimp only
    rw [List.length_map]
    omega
  · intro b hbm
    dsimp only at hbm
    rcases List.mem_map.mp hbm with ⟨a, ha, rfl⟩
    rw [List.length_replicate]
    exact hb a ha

theorem pushAll_spec (vs : List α) : ∀ q : Queue α, q.WF →
    (q.pushAll vs).WF ∧ (q.pushAll vs).contents = q.contents ++ vs.map some := by
  induction vs with
  | nil =>
    intro q hwf
    exact ⟨hwf, by simp [Queue.pushAll]⟩
  | cons v vs ih =>
    intro q hwf
    obtain ⟨hwf1, hc1⟩ := push_spec q v hwf
    obtain ⟨hwf2, hc2⟩ := ih (q.push v) hwf1
    refine ⟨hwf2, ?_⟩
    simp only [Queue.pushAll]
    rw [hc2, hc1]
    simp

theorem popN_spec (k : Nat) : ∀ q : Queue α, q.WF → k ≤ q.contents.length →
    (q.popN k).1 = q.contents.take k ∧ (q.popN k).2.WF ∧
    (q.popN k).2.contents = q.contents.drop k := by
  induction k with
  | zero =>
    intro q hwf _
    exact ⟨by simp [Queue.popN], hwf, by simp [Queue.popN]⟩
  | succ k ih =>
    intro q hwf hk
    obtain ⟨c, cs, hc⟩ : ∃ c cs, q.contents = c :: cs := by
      cases hcc : q.contents with
      | nil => rw [hcc] at hk; simp at hk
      | cons c cs => exact ⟨c, cs, rfl⟩
    obtain ⟨h1, h2, h3⟩ := pop_spec q c cs hwf hc
    have hk' : k ≤ (q.pop).2.contents.length := by
      have hlc := congrArg List.length hc
      simp only [List.length_cons] at hlc
      rw [h3]
      omega
    obtain ⟨ih1, ih2, ih3⟩ := ih (q.pop).2 h2 hk'
    simp only [Queue.popN]
    refine ⟨?_, ih2, ?_⟩
    · dsimp only
      rw [h1, ih1, h3, hc]
      simp
    · dsimp only
      rw [ih3, h3, hc]
      simp

theorem reach_spec (ops : List (QOp α)) : ∀ q : Queue α, q.WF →
    validFrom q.contents.length ops = true →
    (q.applyOps ops).WF ∧
    ((q.applyOps ops).contents.length : Int) =
      q.contents.length + countPush ops - countPop ops := by
  induction ops with
  | nil =>
    intro q hwf _
    refine ⟨hwf, ?_⟩
    simp [Queue.applyOps, countPush, countPop]
  | cons op ops ih =>
    intro q hwf hv
    cases op with
    | push x =>
      obtain ⟨hwf1, hc1⟩ := push_spec q x hwf
      have hl1 : (q.push x).contents.length = q.contents.length + 1 := by
        rw [hc1]
        simp
      have hv1 : validFrom (q.push x).contents.length ops = true := by
        rw [hl1]
        simpa only [validFrom] using hv
      obtain ⟨ihw, ihl⟩ := ih (q.push x) hwf1 hv1
      refine ⟨ihw, ?_⟩
      simp only [Queue.applyOps, Queue.applyOp, countPush, countPop]
      rw [ihl, hl1]
      push_cast
      ring
    | pop =>
      simp only [validFrom, Bool.and_eq_true, decide_eq_true_eq] at hv
      obtain ⟨hpos, hv'⟩ := hv
      obtain ⟨c, cs, hc⟩ : ∃ c cs, q.contents = c :: cs := by
        cases hcc : q.contents with
        | nil => rw [hcc] at hpos; simp at hpos
        | cons c cs => exact ⟨c, cs, rfl⟩
      obtain ⟨_, h2, h3⟩ := pop_spec q c cs hwf hc
      have hlc := congrArg List.length hc
      simp only [List.length_cons] at hlc
      have hlen1 : (q.pop).2.contents.length = q.contents.length - 1 := by
        rw [h3]
        omega
      have hv1 : validFrom (q.pop).2.contents.length ops = true := by
        rw [hlen1]
        exact hv'
      obtain ⟨ihw, ihl⟩ := ih (q.pop).2 h2 hv1
      refine ⟨ihw, ?_⟩
      simp only [Queue.applyOps, Queue.applyOp, countPush, countPop]
      rw [ihl, hlen1]
      omega

/-! ## Claim theorems for the queue: C7, C8, C9 -/

/-- C7: pushing v1..vn onto a fresh queue and then popping n times returns
v1..vn in order — including when the pushes cross block boundaries and insert
new blocks into the ring, since the sequence length is arbitrary. -/
theorem c7_queue_fifo {α : Type} (vs : List α) :
    ((Queue.new.pushAll vs).popN vs.length).1 = vs.map some := by
  obtain ⟨hwfn, hcn⟩ := new_wf (α := α)
  obtain ⟨hwf1, hc1⟩ := pushAll_spec vs Queue.new hwfn
  rw [hcn, List.nil_append] at hc1
  have hlen : vs.length ≤ (Queue.new.pushAll vs).contents.length := by
    rw [hc1]
    simp
  obtain ⟨h1, _, _⟩ := popN_spec vs.length (Queue.new.pushAll vs) hwf1 hlen
  rw [h1, hc1]
  rw [List.take_of_length_le (by simp)]

/-- C8: in every queue state reachable from a fresh queue by pushes and pops
with no pop on an empty queue (so every prefix has at most as many pops as
pushes), `Size()` equals the number of pushes minus the number of pops, and
`Empty()` returns true exactly when `Size()` is zero. -/
theorem c8_size_tracks {α : Type} (ops : List (QOp α)) (hv : validFrom 0 ops = true) :
    (Queue.applyOps Queue.new ops).size = (countPush ops : Int) - countPop ops ∧
    ((Queue.applyOps Queue.new ops).empty = true ↔
      (Queue.applyOps Queue.new ops).size = 0) := by
  obtain ⟨hwfn, hcn⟩ := new_wf (α := α)
  have hlen0 : (Queue.new : Queue α).contents.length = 0 := by rw [hcn]; rfl
  obtain ⟨hwf, hl⟩ := reach_spec ops Queue.new hwfn (by rw [hlen0]; exact hv)
  have hsz := size_eq_contents _ hwf
  have hem := empty_iff_contents _ hwf
  constructor
  · rw [hsz, hl, hlen0]
    push_cast
    ring
  · rw [hem, hsz, ← List.length_eq_zero]
    exact Nat.cast_eq_zero.symm

theorem c8_size_tracks_witness :
    validFrom 0 [QOp.push (1 : Nat), QOp.push 2, QOp.pop] = true ∧
    ((Queue.applyOps Queue.new [QOp.push (1 : Nat), QOp.push 2, QOp.pop]).size =
       (countPush [QOp.push (1 : Nat), QOp.push 2, QOp.pop] : Int) -
         countPop [QOp.push (1 : Nat), QOp.push 2, QOp.pop] ∧
     ((Queue.applyOps Queue.new [QOp.push (1 : Nat), QOp.push 2, QOp.pop]).empty = true ↔
       (Queue.applyOps Queue.new [QOp.push (1 : Nat), QOp.push 2, QOp.pop]).size = 0)) :=
  ⟨by decide, c8_size_tracks [QOp.push (1 : Nat), QOp.push 2, QOp.pop] (by decide)⟩

/-- C9: from the structural invariant (offsets within a block, indices within
the allocated blocks, and head/tail being the blocks at the head/tail index),
every operation preserves the invariant — `Pop` included, even on an empty
queue — and `Push`, `Pop`, `Front` and `Reset` only touch slots inside
allocated blocks. -/
theorem c9_invariant_safety {α : Type} (q : Queue α) (x : α) (h : q.WFB) :
    (q.push x).WFB ∧ (q.pop).2.WFB ∧ q.reset.WFB ∧
    q.headIdx < q.blocks.length ∧ q.tailIdx < q.blocks.length ∧
    q.headOff < q.head.length ∧ q.tailOff < q.tail.length ∧
    q.head = q.blocks.getD q.headIdx [] ∧ q.tail = q.blocks.getD q.tailIdx [] := by
  obtain ⟨hh, ht, hho, hto, hb⟩ := h
  refine ⟨wfb_push q x ⟨hh, ht, hho, hto, hb⟩, wfb_pop q ⟨hh, ht, hho, hto, hb⟩,
    wfb_reset q ⟨hh, ht, hho, hto, hb⟩, hh, ht, ?_, ?_, rfl, rfl⟩
  · rw [show q.head.length = blockSize from
      hb q.head (getD_mem q.blocks q.headIdx [] hh)]
    exact hho
  · rw [show q.tail.length = blockSize from
      hb q.tail (getD_mem q.blocks q.tailIdx [] ht)]
    exact hto

theorem c9_invariant_safety_witness :
    (Queue.new : Queue Nat).WFB ∧
    (((Queue.new : Queue Nat).push 7).WFB ∧
     ((Queue.new : Queue Nat).pop).2.WFB ∧
     (Queue.new : Queue Nat).reset.WFB ∧
     (Queue.new : Queue Nat).headIdx < (Queue.new : Queue Nat).blocks.length ∧
     (Queue.new : Queue Nat).tailIdx < (Queue.new : Queue Nat).blocks.length ∧
     (Queue.new : Queue Nat).headOff < (Queue.new : Queue Nat).head.length ∧
     (Queue.new : Queue Nat).tailOff < (Queue.new : Queue Nat).tail.length ∧
     (Queue.new : Queue Nat).head =
       (Queue.new : Queue Nat).blocks.getD (Queue.new : Queue Nat).headIdx [] ∧
     (Queue.new : Queue Nat).tail =
       (Queue.new : Queue Nat).blocks.getD (Queue.new : Queue Nat).tailIdx []) :=
  ⟨(new_wf (α := Nat)).1.1,
   c9_invariant_safety (Queue.new : Queue Nat) 7 (new_wf (α := Nat)).1.1⟩
